import Mathlib

/-!
# CPU scheduling policies (`main.cpp`)

A shallow embedding of the five scheduling policies of `main.cpp`
(`FCFS`, `SJF`, `PriorityScheduling`, `RoundRobin`, `PriorityWithRR`) and
proofs about the order in which each of them prints its tasks.

* `std::vector<Task>` and `std::deque<Task>` are lists of `Task`.
* `int` fields are integers; the only arithmetic of the program is
  `burstTime -= 10` under the guard `burstTime > 10`, which cannot wrap.
* `std::cout` is a list of lines; every policy also exposes the list of task
  records it prints (`dispatch`), from which the lines are rendered.
* `std::sort` is a library routine: it is a parameter of the two policies
  that call it, constrained by what the C++ standard promises of it. Where the
  order of equivalent elements matters, the parameter is `Libstdcxx.sort`, the
  routine as libstdc++ implements it.
* For the effect of a call on the vector of `main`, containers live in a
  `Memory` by address: a reference parameter is the address of the caller's
  container, a copy is a container at a fresh address.
-/

namespace CpuScheduler

/-- A task with name, priority and burst time (`class Task`). -/
structure Task where
  name : String
  priority : Int
  burstTime : Int
deriving DecidableEq

/-- The line `"Executing task: " << task.name << "\n"` (without its newline). -/
def execLine (task : Task) : String := "Executing task: " ++ task.name

/-- The counting loop of the three non-preemptive policies,
`for (size_t i = 0; i < v.size(); ++i) { const Task& task = v[i]; std::cout << ... }`,
from index `i` on: the task records it prints, in order. -/
def emitFrom (v : List Task) (i : Nat) : List Task :=
  if h : i < v.length then v[i] :: emitFrom v (i + 1) else []
termination_by v.length - i

/-! ## FCFS -/

namespace FCFS

/-- The task records `FCFS::scheduleTasks` prints, in printing order. -/
def dispatch (tasks : List Task) : List Task := emitFrom tasks 0

/-- The lines `FCFS::scheduleTasks` writes to `std::cout`. -/
def scheduleTasks (tasks : List Task) : List String :=
  "FCFS Scheduling:" :: (dispatch tasks).map execLine ++ [""]

end FCFS

/-! ## `std::sort` -/

/-- The type of `std::sort` on a `std::vector<Task>`: comparator and range in,
reordered range out. -/
abbrev Sorter := (Task → Task → Bool) → List Task → List Task

/-- The requirement `std::sort` puts on its comparator: a strict weak ordering
(irreflexive, transitive, and with a transitive incomparability relation). -/
def StrictWeakOrder (comp : Task → Task → Bool) : Prop :=
  (∀ a, comp a a = false) ∧
  (∀ a b c, comp a b = true → comp b c = true → comp a c = true) ∧
  (∀ a b c, comp a b = false → comp b a = false → comp b c = false → comp c b = false →
    comp a c = false ∧ comp c a = false)

/-- A range is sorted with respect to `comp` when no later element compares
less than an earlier one. -/
def SortedBy (comp : Task → Task → Bool) (l : List Task) : Prop :=
  l.Pairwise (fun a b => comp b a = false)

/-- What the C++ standard promises of `std::sort(first, last, comp)`: for a
strict weak ordering `comp` the range is rearranged (a permutation) so that it
is sorted with respect to `comp`. The order of equivalent elements is not part
of the promise. -/
def IsStdSort (sort : Sorter) : Prop :=
  ∀ comp, StrictWeakOrder comp → ∀ l, (sort comp l).Perm l ∧ SortedBy comp (sort comp l)

/-- A sorter that keeps equivalent elements in input order: insertion sort,
each element placed before the first element that compares greater. -/
def stableSort : Sorter := fun comp l =>
  l.insertionSort (fun a b => comp b a = false)

/-- A sorter that does not keep equivalent elements in input order: insertion
sort taking the elements from the back of the range to the front. -/
def backwardSort : Sorter := fun comp l =>
  l.reverse.insertionSort (fun a b => comp b a = false)

/-! ## SJF -/

namespace SJF

/-- The comparator `SJF::CompareBurstTime`. -/
def CompareBurstTime (a b : Task) : Bool := decide (a.burstTime < b.burstTime)

/-- The task records `SJF::scheduleTasks` prints, in printing order: the copy
`sortedTasks` after `std::sort`, walked by index. -/
def dispatch (sort : Sorter) (tasks : List Task) : List Task :=
  let sortedTasks := sort CompareBurstTime tasks
  emitFrom sortedTasks 0

/-- The lines `SJF::scheduleTasks` writes to `std::cout`. -/
def scheduleTasks (sort : Sorter) (tasks : List Task) : List String :=
  "SJF Scheduling:" :: (dispatch sort tasks).map execLine ++ [""]

end SJF

/-! ## Priority -/

namespace PriorityScheduling

/-- The comparator `PriorityScheduling::ComparePriority`. -/
def ComparePriority (a b : Task) : Bool := decide (a.priority > b.priority)

/-- The task records `PriorityScheduling::scheduleTasks` prints, in printing
order. -/
def dispatch (sort : Sorter) (tasks : List Task) : List Task :=
  let sortedTasks := sort ComparePriority tasks
  emitFrom sortedTasks 0

/-- The lines `PriorityScheduling::scheduleTasks` writes to `std::cout`. -/
def scheduleTasks (sort : Sorter) (tasks : List Task) : List String :=
  "Priority Scheduling:" :: (dispatch sort tasks).map execLine ++ [""]

end PriorityScheduling

/-! ## The quantum policies -/

/-- The state of the `while` loop of a quantum policy: the working deque and
the task records printed so far (oldest first), each as it was when printed. -/
structure State where
  taskQueue : List Task
  emitted : List Task
deriving DecidableEq

/-- Turns an entry with remaining burst time `b` still needs under quantum 10:
one when `b ≤ 10`, otherwise `⌈b / 10⌉`. -/
def turns (b : Int) : Nat := if b ≤ 10 then 1 else ((b + 9) / 10).toNat

/-- Turns still needed by all the entries of a working queue. -/
def workLeft (q : List Task) : Nat := (q.map (fun t => turns t.burstTime)).sum

namespace RoundRobin

/-- The constant `timeQuantum` of `RoundRobin::scheduleTasks`. -/
def timeQuantum : Int := 10

/-- One evaluation of the loop condition and body of `RoundRobin::scheduleTasks`:
`none` when the deque is empty (the loop exits), otherwise the state after
popping the front and either requeueing it with 10 less or printing it. -/
def step (s : State) : Option State :=
  match s.taskQueue with
  | [] => none
  | task :: rest =>
    if task.burstTime > timeQuantum then
      some { taskQueue := rest ++ [{ task with burstTime := task.burstTime - timeQuantum }],
             emitted := s.emitted }
    else
      some { taskQueue := rest, emitted := s.emitted ++ [task] }

/-- The `while (!taskQueue.empty())` loop of `RoundRobin::scheduleTasks`, run
from state `s` to the state in which it exits. -/
def loop (s : State) : State :=
  match h : step s with
  | none => s
  | some s' => loop s'
termination_by workLeft s.taskQueue
decreasing_by
  unfold step at h
  split at h
  · simp at h
  · rename_i task rest hq
    rw [hq]
    split at h
    · rename_i hb
      simp only [Option.some.injEq] at h
      subst h
      simp only [workLeft, timeQuantum, turns, List.map_append, List.sum_append, List.map_cons,
        List.sum_cons, List.map_nil, List.sum_nil] at hb ⊢
      split <;> split <;> omega
    · simp only [Option.some.injEq] at h
      subst h
      simp only [workLeft, turns, List.map_cons, List.sum_cons]
      split <;> omega

/-- The state after exactly `n` pops of the loop of `RoundRobin::scheduleTasks`
started in `s`; `none` when the loop exits before its `n`-th pop. -/
def stepN : Nat → State → Option State
  | 0, s => some s
  | n + 1, s => (step s).bind (stepN n)

/-- The task records `RoundRobin::scheduleTasks` prints, in printing order. -/
def dispatch (tasks : List Task) : List Task :=
  (loop { taskQueue := tasks, emitted := [] }).emitted

/-- The lines `RoundRobin::scheduleTasks` writes to `std::cout`. -/
def scheduleTasks (tasks : List Task) : List String :=
  "Round-Robin Scheduling:" :: (dispatch tasks).map execLine ++ [""]

end RoundRobin

namespace PriorityWithRR

/-- The constant `timeQuantum` of `PriorityWithRR::scheduleTasks`. -/
def timeQuantum : Int := 10

/-- One evaluation of the loop condition and body of
`PriorityWithRR::scheduleTasks`. -/
def step (s : State) : Option State :=
  match s.taskQueue with
  | [] => none
  | task :: rest =>
    if task.burstTime > timeQuantum then
      some { taskQueue := rest ++ [{ task with burstTime := task.burstTime - timeQuantum }],
             emitted := s.emitted }
    else
      some { taskQueue := rest, emitted := s.emitted ++ [task] }

/-- The `while (!taskQueue.empty())` loop of `PriorityWithRR::scheduleTasks`. -/
def loop (s : State) : State :=
  match h : step s with
  | none => s
  | some s' => loop s'
termination_by workLeft s.taskQueue
decreasing_by
  unfold step at h
  split at h
  · simp at h
  · rename_i task rest hq
    rw [hq]
    split at h
    · rename_i hb
      simp only [Option.some.injEq] at h
      subst h
      simp only [workLeft, timeQuantum, turns, List.map_append, List.sum_append, List.map_cons,
        List.sum_cons, List.map_nil, List.sum_nil] at hb ⊢
      split <;> split <;> omega
    · simp only [Option.some.injEq] at h
      subst h
      simp only [workLeft, turns, List.map_cons, List.sum_cons]
      split <;> omega

/-- The task records `PriorityWithRR::scheduleTasks` prints, in printing order. -/
def dispatch (tasks : List Task) : List Task :=
  (loop { taskQueue := tasks, emitted := [] }).emitted

/-- The lines `PriorityWithRR::scheduleTasks` writes to `std::cout`. -/
def scheduleTasks (tasks : List Task) : List String :=
  "Priority with Round-Robin Scheduling:" :: (dispatch tasks).map execLine ++ [""]

end PriorityWithRR

/-- The lines `main` writes to `std::cout` once `schedule.txt` has been read
into `tasks`: the five policies, each on the same vector. -/
def mainOutput (sort : Sorter) (tasks : List Task) : List String :=
  FCFS.scheduleTasks tasks ++ SJF.scheduleTasks sort tasks ++
    PriorityScheduling.scheduleTasks sort tasks ++ RoundRobin.scheduleTasks tasks ++
    PriorityWithRR.scheduleTasks tasks

/-! ## Reference orders used in the statements -/

/-- The batch stably sorted by ascending number of turns needed: entries that
need fewer turns first, entries that need equally many in input order. -/
def sortByTurns (tasks : List Task) : List Task :=
  tasks.insertionSort (fun a b => turns a.burstTime ≤ turns b.burstTime)

/-- The copy pushed to the back of the working queue, `task.burstTime -= 10`. -/
def requeue (t : Task) : Task := { t with burstTime := t.burstTime - 10 }

/-- An entry as it leaves the rotation: 10 taken off its burst time for every
turn but its last. -/
def served (t : Task) : Task :=
  { t with burstTime := t.burstTime - 10 * ((turns t.burstTime : Int) - 1) }

/-- A batch of seventeen entries that all have priority 1 and burst time 5:
any two of them are equivalent for both comparators. -/
def alikeBatch : List Task :=
  [⟨"T01", 1, 5⟩, ⟨"T02", 1, 5⟩, ⟨"T03", 1, 5⟩, ⟨"T04", 1, 5⟩,
   ⟨"T05", 1, 5⟩, ⟨"T06", 1, 5⟩, ⟨"T07", 1, 5⟩, ⟨"T08", 1, 5⟩,
   ⟨"T09", 1, 5⟩, ⟨"T10", 1, 5⟩, ⟨"T11", 1, 5⟩, ⟨"T12", 1, 5⟩,
   ⟨"T13", 1, 5⟩, ⟨"T14", 1, 5⟩, ⟨"T15", 1, 5⟩, ⟨"T16", 1, 5⟩,
   ⟨"T17", 1, 5⟩]

/-- The batch of the worked scenario: `A 1 5`, `B 2 25`, `C 3 8`. -/
def exampleBatch : List Task := [⟨"A", 1, 5⟩, ⟨"B", 2, 25⟩, ⟨"C", 3, 8⟩]

/-! ## Ghost quantities of the rotation -/

/-- Sum of the burst times of a list of entries. -/
def totalBurst (l : List Task) : Int := (l.map Task.burstTime).sum

/-- The values a C++ `int` (32 bits, signed) can hold. -/
def inInt32 (x : Int) : Prop := -2147483648 ≤ x ∧ x ≤ 2147483647

/-- The value a 32 bit signed machine integer holds after a computation whose
mathematical result is `x` (two's complement wrap-around). -/
def wrap32 (x : Int) : Int := (x + 2147483648) % 4294967296 - 2147483648

namespace RoundRobin

/-- The number of requeues (`taskQueue.push_back(task)`) among the first `n`
pops of the loop of `RoundRobin::scheduleTasks` started in `s`. -/
def requeues : Nat → State → Nat
  | 0, _ => 0
  | n + 1, s =>
    match s.taskQueue, step s with
    | task :: _, some s' => (if task.burstTime > timeQuantum then 1 else 0) + requeues n s'
    | _, _ => 0

end RoundRobin

namespace PriorityWithRR

/-- The state after exactly `n` pops of the loop of
`PriorityWithRR::scheduleTasks` started in `s`; `none` when the loop exits
before its `n`-th pop. -/
def stepN : Nat → State → Option State
  | 0, s => some s
  | n + 1, s => (step s).bind (stepN n)

end PriorityWithRR

/-- The record `t` is a copy of an entry `o` of the batch `B` that has been
requeued `k` times; once requeued, it has at least 1 left and less than `o` had. -/
def Descends (B : List Task) (t : Task) : Prop :=
  ∃ o ∈ B, ∃ k : Nat, t = { o with burstTime := o.burstTime - 10 * (k : Int) } ∧
    (0 < k → 1 ≤ t.burstTime ∧ t.burstTime < o.burstTime)

/-- The invariant of the working queue of a quantum policy with loop step
`step`, for a run on the batch `B`: queued and printed records are copies of
entries of `B` requeued some number of times, printed ones have at most 10
left, all burst times are `int` values, and the pop to come either prints the
front or requeues it, in which case the front has more than 10 left and the
32 bit subtraction gives the exact difference, which is at least 1. -/
def QueueInvariant (step : State → Option State) (B : List Task) (s : State) : Prop :=
  (∀ t ∈ s.taskQueue, Descends B t) ∧
  (∀ t ∈ s.emitted, Descends B t ∧ t.burstTime ≤ 10) ∧
  (∀ t ∈ s.taskQueue ++ s.emitted, inInt32 t.burstTime) ∧
  (∀ task rest, s.taskQueue = task :: rest →
    (task.burstTime ≤ 10 ∧
      step s = some { taskQueue := rest, emitted := s.emitted ++ [task] }) ∨
    (task.burstTime > 10 ∧ wrap32 (task.burstTime - 10) = task.burstTime - 10 ∧
      1 ≤ task.burstTime - 10 ∧
      step s = some { taskQueue := rest ++ [{ task with
                        burstTime := wrap32 (task.burstTime - 10) }],
                      emitted := s.emitted }))

/-! ## The rotation with every record traced to its batch entry -/

/-- A record of the working queue together with its history: the batch entry
it was copied from and the number of times it has been requeued. -/
structure Tracked where
  orig : Task
  passes : Nat
  cur : Task
deriving DecidableEq

/-- A traced record is sound when it is its batch entry with 10 taken off per
requeue and, once requeued, has at least 1 left and less than the entry had. -/
def Tracked.Sound (x : Tracked) : Prop :=
  x.cur = { x.orig with burstTime := x.orig.burstTime - 10 * (x.passes : Int) } ∧
  (0 < x.passes → 1 ≤ x.cur.burstTime ∧ x.cur.burstTime < x.orig.burstTime)

/-- The loop state of a quantum policy with every record traced. -/
structure Ghost where
  taskQueue : List Tracked
  emitted : List Tracked
deriving DecidableEq

/-- The loop state a traced state stands for. -/
def Ghost.erase (g : Ghost) : State :=
  { taskQueue := g.taskQueue.map Tracked.cur, emitted := g.emitted.map Tracked.cur }

/-- The traced state in which the loop starts on the batch `B`: every entry
copied into the queue, not yet requeued. -/
def Ghost.init (B : List Task) : Ghost :=
  { taskQueue := B.map (fun t => { orig := t, passes := 0, cur := t }), emitted := [] }

namespace RoundRobin

/-- The step of `RoundRobin::scheduleTasks` on traced states: the same pop, test
and subtraction, a requeue counted on the record. -/
def ghostStep (g : Ghost) : Option Ghost :=
  match g.taskQueue with
  | [] => none
  | x :: rest =>
    if x.cur.burstTime > timeQuantum then
      some { taskQueue := rest ++ [{ orig := x.orig, passes := x.passes + 1,
                                     cur := { x.cur with
                                       burstTime := x.cur.burstTime - timeQuantum } }],
             emitted := g.emitted }
    else
      some { taskQueue := rest, emitted := g.emitted ++ [x] }

/-- The traced state after exactly `n` pops. -/
def ghostStepN : Nat → Ghost → Option Ghost
  | 0, g => some g
  | n + 1, g => (ghostStep g).bind (ghostStepN n)

end RoundRobin

/-! ## The program around the policies -/

/-- The memory of the running program: the containers (`std::vector<Task>`,
`std::deque<Task>`) that have been constructed, by address; the address the
next container will get; and the lines written to `std::cout` so far. A
container that goes out of scope stays where it is: addresses are not reused. -/
structure Memory where
  object : Nat → List Task
  next : Nat
  cout : List String

/-- The memory before `main` constructs anything. -/
def Memory.empty : Memory := { object := fun _ => [], next := 0, cout := [] }

/-- The construction of a new container holding copies of the entries `v`: the
memory with the container at a fresh address, and that address. -/
def Memory.alloc (m : Memory) (v : List Task) : Memory × Nat :=
  ({ m with object := fun a => if a = m.next then v else m.object a, next := m.next + 1 },
    m.next)

/-- An operation that changes the container at address `a` in place. -/
def Memory.write (m : Memory) (a : Nat) (v : List Task) : Memory :=
  { m with object := fun b => if b = a then v else m.object b }

/-- Lines written to `std::cout`. -/
def Memory.print (m : Memory) (lines : List String) : Memory :=
  { m with cout := m.cout ++ lines }

/-- The call `fcfs.scheduleTasks(tasks)`: the parameter
`const std::vector<Task>& tasks` is bound to the container at address `tasks`,
which the loop reads by index. -/
def FCFS.call (tasks : Nat) (m : Memory) : Memory :=
  let m := m.print ["FCFS Scheduling:"]
  let m := m.print ((emitFrom (m.object tasks) 0).map execLine)
  m.print [""]

/-- The call `sjf.scheduleTasks(tasks)`: `std::vector<Task> sortedTasks = tasks;`
constructs a copy, `std::sort` rearranges that copy in place, the loop reads it. -/
def SJF.call (sort : Sorter) (tasks : Nat) (m : Memory) : Memory :=
  let m := m.print ["SJF Scheduling:"]
  let (m, sortedTasks) := m.alloc (m.object tasks)
  let m := m.write sortedTasks (sort SJF.CompareBurstTime (m.object sortedTasks))
  let m := m.print ((emitFrom (m.object sortedTasks) 0).map execLine)
  m.print [""]

/-- The call `priorityScheduling.scheduleTasks(tasks)`: as for SJF, with the
other comparator. -/
def PriorityScheduling.call (sort : Sorter) (tasks : Nat) (m : Memory) : Memory :=
  let m := m.print ["Priority Scheduling:"]
  let (m, sortedTasks) := m.alloc (m.object tasks)
  let m := m.write sortedTasks
    (sort PriorityScheduling.ComparePriority (m.object sortedTasks))
  let m := m.print ((emitFrom (m.object sortedTasks) 0).map execLine)
  m.print [""]

namespace RoundRobin

/-- One evaluation of the loop condition and body of `RoundRobin::scheduleTasks`
on the memory, the deque `taskQueue` being the container at that address:
`Task task = taskQueue.front();` copies the front entry, `pop_front` and
`push_back` change the deque, `task.burstTime -= timeQuantum` changes the copy. -/
def callStep (taskQueue : Nat) (m : Memory) : Option Memory :=
  match m.object taskQueue with
  | [] => none
  | front :: rest =>
    let task := front
    let m := m.write taskQueue rest
    if task.burstTime > timeQuantum then
      let task := { task with burstTime := task.burstTime - timeQuantum }
      some (m.write taskQueue (m.object taskQueue ++ [task]))
    else
      some (m.print [execLine task])

/-- The `while` loop of `RoundRobin::scheduleTasks` on the memory. -/
def callLoop (taskQueue : Nat) (m : Memory) : Memory :=
  match h : callStep taskQueue m with
  | none => m
  | some m' => callLoop taskQueue m'
termination_by workLeft (m.object taskQueue)
decreasing_by
  unfold callStep at h
  split at h
  · simp at h
  · rename_i front rest hq
    rw [hq]
    dsimp only at h
    split at h
    · rename_i hb
      simp only [Option.some.injEq] at h
      subst h
      simp only [Memory.write, if_true, workLeft, timeQuantum, turns, List.map_append,
        List.sum_append, List.map_cons, List.sum_cons, List.map_nil, List.sum_nil] at hb ⊢
      split <;> split <;> omega
    · simp only [Option.some.injEq] at h
      subst h
      simp only [Memory.write, Memory.print, if_true, workLeft, turns, List.map_cons,
        List.sum_cons]
      split <;> omega

/-- The call `roundRobin.scheduleTasks(tasks)`:
`std::deque<Task> taskQueue(tasks.begin(), tasks.end());` constructs a deque of
copies, which the loop then rotates. -/
def call (tasks : Nat) (m : Memory) : Memory :=
  let m := m.print ["Round-Robin Scheduling:"]
  let (m, taskQueue) := m.alloc (m.object tasks)
  let m := callLoop taskQueue m
  m.print [""]

end RoundRobin

namespace PriorityWithRR

/-- One evaluation of the loop condition and body of
`PriorityWithRR::scheduleTasks` on the memory. -/
def callStep (taskQueue : Nat) (m : Memory) : Option Memory :=
  match m.object taskQueue with
  | [] => none
  | front :: rest =>
    let task := front
    let m := m.write taskQueue rest
    if task.burstTime > timeQuantum then
      let task := { task with burstTime := task.burstTime - timeQuantum }
      some (m.write taskQueue (m.object taskQueue ++ [task]))
    else
      some (m.print [execLine task])

/-- The `while` loop of `PriorityWithRR::scheduleTasks` on the memory. -/
def callLoop (taskQueue : Nat) (m : Memory) : Memory :=
  match h : callStep taskQueue m with
  | none => m
  | some m' => callLoop taskQueue m'
termination_by workLeft (m.object taskQueue)
decreasing_by
  unfold callStep at h
  split at h
  · simp at h
  · rename_i front rest hq
    rw [hq]
    dsimp only at h
    split at h
    · rename_i hb
      simp only [Option.some.injEq] at h
      subst h
      simp only [Memory.write, if_true, workLeft, timeQuantum, turns, List.map_append,
        List.sum_append, List.map_cons, List.sum_cons, List.map_nil, List.sum_nil] at hb ⊢
      split <;> split <;> omega
    · simp only [Option.some.injEq] at h
      subst h
      simp only [Memory.write, Memory.print, if_true, workLeft, turns, List.map_cons,
        List.sum_cons]
      split <;> omega

/-- The call `priorityWithRR.scheduleTasks(tasks)`. -/
def call (tasks : Nat) (m : Memory) : Memory :=
  let m := m.print ["Priority with Round-Robin Scheduling:"]
  let (m, taskQueue) := m.alloc (m.object tasks)
  let m := callLoop taskQueue m
  m.print [""]

end PriorityWithRR

/-- The body of `main` from line 133 on, for a file that holds the entries
`batch`: the vector `tasks` is constructed and filled, then the five policies
are called on it, one after the other. -/
def mainRun (sort : Sorter) (batch : List Task) : Memory :=
  let (m, tasks) := Memory.empty.alloc batch
  let m := FCFS.call tasks m
  let m := SJF.call sort tasks m
  let m := PriorityScheduling.call sort tasks m
  let m := RoundRobin.call tasks m
  PriorityWithRR.call tasks m

/-- The characters sent to `std::cout` for a list of lines: every line followed
by its newline character. -/
def render : List String → List Char
  | [] => []
  | line :: rest => line.toList ++ Char.ofNat 10 :: render rest

/-! ## `std::sort` as libstdc++ implements it

The routines of `bits/stl_algo.h` and `bits/stl_heap.h` (GCC 12) behind
`std::sort`, on a range held as a list; positions are offsets into the range. -/

namespace Libstdcxx

/-- The comparison `__comp(i, j)` of the elements at two positions of the range. -/
def compAt (comp : Task → Task → Bool) (a : List Task) (i j : Nat) : Bool :=
  match a[i]?, a[j]? with
  | some x, some y => comp x y
  | _, _ => false

/-- The exchange `std::iter_swap(i, j)`. -/
def iterSwap (a : List Task) (i j : Nat) : List Task :=
  match a[i]?, a[j]? with
  | some x, some y => (a.set i y).set j x
  | _, _ => a

/-- The assignment `*(first + i) = std::move(*(first + j))`. -/
def moveFrom (a : List Task) (i j : Nat) : List Task :=
  match a[j]? with
  | some x => a.set i x
  | none => a

/-- The halving behind `lg`; the counter bounds the number of halvings. -/
def lgFrom : Nat → Nat → Nat
  | 0, _ => 0
  | fuel + 1, n => if n ≤ 1 then 0 else lgFrom fuel (n / 2) + 1

/-- The function `std::__lg`: the position of the highest set bit. -/
def lg (n : Nat) : Nat := lgFrom n n

/-- The routine `std::__unguarded_linear_insert(last, comp)`: `val = *last` is
carried to the left past every element that compares greater, each of which
moves one place to the right. `before` is the range in front of `last` read
leftwards from `last - 1`; the result is the range up to `last`, read leftwards.
(The routine has no bound check: its callers see to it that some element stops
the walk; here the walk also stops at the front of the range.) -/
def unguardedLinearInsert (comp : Task → Task → Bool) (val : Task) : List Task → List Task
  | [] => [val]
  | next :: before =>
    if comp val next then next :: unguardedLinearInsert comp val before
    else val :: next :: before

/-- The `for` loop of `std::__insertion_sort(first, last, comp)` at iterator
`i`: `done` is `[first, i)` read leftwards and `todo` is `[i, last)`. An element
that compares less than `*first` goes to the front (`move_backward`), any other
is placed by `unguardedLinearInsert`. The result is the range in order. -/
def insertionSortLoop (comp : Task → Task → Bool) : List Task → List Task → List Task
  | done, [] => done.reverse
  | done, val :: todo =>
    if (match done.getLast? with
        | some first => comp val first
        | none => false) then
      insertionSortLoop comp (done ++ [val]) todo
    else
      insertionSortLoop comp (unguardedLinearInsert comp val done) todo

/-- The routine `std::__insertion_sort(first, last, comp)` on the range `a`. -/
def insertionSort (comp : Task → Task → Bool) : List Task → List Task
  | [] => []
  | first :: rest => insertionSortLoop comp [first] rest

/-- The `for` loop of `std::__unguarded_insertion_sort(first, last, comp)`:
`done` is everything in front of `i`, read leftwards, `todo` is `[i, last)`. -/
def unguardedInsertionSortLoop (comp : Task → Task → Bool) : List Task → List Task → List Task
  | done, [] => done.reverse
  | done, val :: todo =>
    unguardedInsertionSortLoop comp (unguardedLinearInsert comp val done) todo

/-- The routine `std::__final_insertion_sort(first, last, comp)`, with
`_S_threshold = 16`. -/
def finalInsertionSort (comp : Task → Task → Bool) (a : List Task) : List Task :=
  if a.length > 16 then
    unguardedInsertionSortLoop comp (insertionSort comp (a.take 16)).reverse (a.drop 16)
  else
    insertionSort comp a

/-- The routine `std::__move_median_to_first(result, a, b, c, comp)`: swaps the
median of the elements at `a`, `b`, `c` with the element at `result`. -/
def moveMedianToFirst (comp : Task → Task → Bool) (v : List Task) (result a b c : Nat) :
    List Task :=
  if compAt comp v a b then
    if compAt comp v b c then iterSwap v result b
    else if compAt comp v a c then iterSwap v result c
    else iterSwap v result a
  else if compAt comp v a c then iterSwap v result a
  else if compAt comp v b c then iterSwap v result c
  else iterSwap v result b

/-- The inner loop `while (__comp(__first, __pivot)) ++__first;` of
`std::__unguarded_partition`; the counter bounds the walk by the length of the
range, beyond which no comparison holds. -/
def scanUp (comp : Task → Task → Bool) (a : List Task) (pivot : Nat) : Nat → Nat → Nat
  | 0, first => first
  | fuel + 1, first =>
    if compAt comp a first pivot then scanUp comp a pivot fuel (first + 1) else first

/-- The inner loop `while (__comp(__pivot, __last)) --__last;` of
`std::__unguarded_partition`. -/
def scanDown (comp : Task → Task → Bool) (a : List Task) (pivot : Nat) : Nat → Nat
  | 0 => 0
  | last + 1 =>
    if compAt comp a pivot (last + 1) then scanDown comp a pivot last else last + 1

/-- The routine `std::__unguarded_partition(first, last, pivot, comp)`: the
range after the exchanges and the cut it returns. Every round moves `first` up,
so the counter, started at the length of the range, never runs out. -/
def unguardedPartition (comp : Task → Task → Bool) (pivot : Nat) :
    Nat → List Task → Nat → Nat → List Task × Nat
  | 0, a, first, _ => (a, first)
  | fuel + 1, a, first, last =>
    let first := scanUp comp a pivot a.length first
    let last := scanDown comp a pivot (last - 1)
    if first < last then
      unguardedPartition comp pivot fuel (iterSwap a first last) (first + 1) last
    else (a, first)

/-- The routine `std::__unguarded_partition_pivot(first, last, comp)`. -/
def unguardedPartitionPivot (comp : Task → Task → Bool) (a : List Task) (first last : Nat) :
    List Task × Nat :=
  let mid := first + (last - first) / 2
  let a := moveMedianToFirst comp a first (first + 1) mid (last - 1)
  unguardedPartition comp first a.length a (first + 1) last

/-- The routine `std::__push_heap(first, holeIndex, topIndex, value, comp)`; the
counter bounds the climb, which halves `holeIndex` every round. -/
def pushHeap (comp : Task → Task → Bool) (value : Task) (topIndex : Nat) :
    Nat → List Task → Nat → List Task
  | 0, h, holeIndex => h.set holeIndex value
  | fuel + 1, h, holeIndex =>
    let parent := (holeIndex - 1) / 2
    if decide (holeIndex > topIndex) &&
        (match h[parent]? with
         | some p => comp p value
         | none => false) then
      pushHeap comp value topIndex fuel (moveFrom h holeIndex parent) parent
    else h.set holeIndex value

/-- The `while` loop of `std::__adjust_heap`: the hole sinks to the larger child
while it has two children; gives the range, the hole and `secondChild`. -/
def siftDown (comp : Task → Task → Bool) (len : Nat) :
    Nat → List Task → Nat → Nat → List Task × Nat × Nat
  | 0, h, holeIndex, secondChild => (h, holeIndex, secondChild)
  | fuel + 1, h, holeIndex, secondChild =>
    if secondChild < (len - 1) / 2 then
      let secondChild := 2 * (secondChild + 1)
      let secondChild :=
        if compAt comp h secondChild (secondChild - 1) then secondChild - 1 else secondChild
      siftDown comp len fuel (moveFrom h holeIndex secondChild) secondChild secondChild
    else (h, holeIndex, secondChild)

/-- The routine `std::__adjust_heap(first, holeIndex, len, value, comp)`. -/
def adjustHeap (comp : Task → Task → Bool) (h : List Task) (holeIndex len : Nat)
    (value : Task) : List Task :=
  let topIndex := holeIndex
  let (h, holeIndex, secondChild) := siftDown comp len len h holeIndex holeIndex
  let (h, holeIndex) :=
    if len % 2 = 0 ∧ secondChild = (len - 2) / 2 then
      let secondChild := 2 * (secondChild + 1)
      (moveFrom h holeIndex (secondChild - 1), secondChild - 1)
    else (h, holeIndex)
  pushHeap comp value topIndex len h holeIndex

/-- The loop of `std::__make_heap` from `parent` down to 0. -/
def makeHeapFrom (comp : Task → Task → Bool) (len : Nat) : Nat → List Task → List Task
  | 0, h =>
    match h[0]? with
    | some value => adjustHeap comp h 0 len value
    | none => h
  | parent + 1, h =>
    match h[parent + 1]? with
    | some value => makeHeapFrom comp len parent (adjustHeap comp h (parent + 1) len value)
    | none => h

/-- The routine `std::__make_heap(first, last, comp)` on the range `h`. -/
def makeHeap (comp : Task → Task → Bool) (h : List Task) : List Task :=
  if h.length < 2 then h else makeHeapFrom comp h.length ((h.length - 2) / 2) h

/-- The routine `std::__pop_heap(first, last, result, comp)`, `last` and `result`
given as offsets from `first`. -/
def popHeap (comp : Task → Task → Bool) (h : List Task) (last result : Nat) : List Task :=
  match h[result]? with
  | some value => adjustHeap comp (moveFrom h result 0) 0 last value
  | none => h

/-- The routine `std::__sort_heap(first, last, comp)`, `last` an offset. -/
def sortHeap (comp : Task → Task → Bool) : Nat → List Task → List Task
  | 0, h => h
  | last + 1, h => if last + 1 > 1 then sortHeap comp last (popHeap comp h last last) else h

/-- The call `std::__partial_sort(first, last, last, comp)` of
`std::__introsort_loop`: heap sort of `[first, last)` within the range `a`
(`std::__heap_select` with `middle = last` is `std::__make_heap`). -/
def partialSort (comp : Task → Task → Bool) (a : List Task) (first last : Nat) : List Task :=
  let h := (a.take last).drop first
  let h := makeHeap comp h
  let h := sortHeap comp h.length h
  a.take first ++ h ++ a.drop last

/-- The routine `std::__introsort_loop(first, last, depth_limit, comp)` on the
range `a`: while more than 16 elements are left, partition around the median of
three, recurse into the right part and go on with the left part; heap sort when
the depth limit is used up. -/
def introsortLoop (comp : Task → Task → Bool) : Nat → List Task → Nat → Nat → List Task
  | 0, a, first, last =>
    if last - first > 16 then partialSort comp a first last else a
  | depthLimit + 1, a, first, last =>
    if last - first > 16 then
      let (a, cut) := unguardedPartitionPivot comp a first last
      let a := introsortLoop comp depthLimit a cut last
      introsortLoop comp depthLimit a first cut
    else a

/-- The routine `std::sort(first, last, comp)` as libstdc++ implements it
(`std::__sort`): introsort down to runs of at most 16 elements, then one final
insertion sort. -/
def sort : Sorter := fun comp a =>
  if a.length = 0 then a
  else finalInsertionSort comp (introsortLoop comp (lg a.length * 2) a 0 a.length)

end Libstdcxx

/-! ## Basic facts -/

theorem emitFrom_eq_drop (v : List Task) (i : Nat) : emitFrom v i = v.drop i := by
  generalize h : v.length - i = n
  induction n generalizing i with
  | zero =>
    rw [emitFrom, dif_neg (by omega), List.drop_of_length_le (by omega)]
  | succ n ih =>
    have hi : i < v.length := by omega
    rw [emitFrom, dif_pos hi, ih (i + 1) (by omega)]
    exact (List.drop_eq_getElem_cons hi).symm

theorem emitFrom_zero (v : List Task) : emitFrom v 0 = v := by
  rw [emitFrom_eq_drop, List.drop_zero]

/-! ## The rotation loop -/

theorem turns_pos (b : Int) : 0 < turns b := by
  unfold turns
  split <;> omega

theorem turns_sub (b : Int) (h : b > 10) : turns (b - 10) + 1 = turns b := by
  unfold turns
  split <;> split <;> omega

theorem turns_eq_one_iff (b : Int) : turns b = 1 ↔ b ≤ 10 := by
  unfold turns
  split <;> omega

theorem workLeft_nil : workLeft [] = 0 := rfl

theorem workLeft_cons (t : Task) (q : List Task) :
    workLeft (t :: q) = turns t.burstTime + workLeft q := by
  simp [workLeft]

theorem workLeft_append (q r : List Task) : workLeft (q ++ r) = workLeft q + workLeft r := by
  simp [workLeft]

namespace RoundRobin

theorem step_nil (e : List Task) : step { taskQueue := [], emitted := e } = none := rfl

theorem step_cons (t : Task) (r e : List Task) :
    step { taskQueue := t :: r, emitted := e } =
      if t.burstTime > 10 then
        some { taskQueue := r ++ [{ t with burstTime := t.burstTime - 10 }], emitted := e }
      else some { taskQueue := r, emitted := e ++ [t] } := rfl

theorem step_eq_none_iff (s : State) : step s = none ↔ s.taskQueue = [] := by
  obtain ⟨q, e⟩ := s
  cases q with
  | nil => simp [step_nil]
  | cons t r => rw [step_cons]; split <;> simp

theorem step_workLeft {s s' : State} (h : step s = some s') :
    workLeft s'.taskQueue < workLeft s.taskQueue := by
  obtain ⟨q, e⟩ := s
  cases q with
  | nil => simp [step_nil] at h
  | cons t r =>
    rw [step_cons] at h
    have hp := turns_pos t.burstTime
    split at h
    · rename_i hb
      have hs := turns_sub t.burstTime hb
      simp only [Option.some.injEq] at h
      subst h
      simp only [workLeft_append, workLeft_cons, workLeft_nil]
      omega
    · simp only [Option.some.injEq] at h
      subst h
      simp only [workLeft_cons]
      omega

theorem loop_of_step_none {s : State} (h : step s = none) : loop s = s := by
  rw [loop]
  split
  · rfl
  · simp_all

theorem loop_of_step_some {s s' : State} (h : step s = some s') : loop s = loop s' := by
  rw [loop]
  split
  · simp_all
  · rename_i s'' h'
    rw [h] at h'
    simp only [Option.some.injEq] at h'
    rw [h']

theorem loop_nil (e : List Task) :
    loop { taskQueue := [], emitted := e } = { taskQueue := [], emitted := e } :=
  loop_of_step_none (step_nil e)

theorem loop_cons (t : Task) (r e : List Task) :
    loop { taskQueue := t :: r, emitted := e } =
      if t.burstTime > 10 then
        loop { taskQueue := r ++ [{ t with burstTime := t.burstTime - 10 }], emitted := e }
      else loop { taskQueue := r, emitted := e ++ [t] } := by
  split
  · exact loop_of_step_some (by rw [step_cons, if_pos ‹_›])
  · exact loop_of_step_some (by rw [step_cons, if_neg ‹_›])

/-- Induction over the runs of the loop: a property that holds of a state with
an empty deque, and of a state whenever it holds of its successor, holds of
every state. -/
theorem loop_induction (P : State → Prop)
    (hnone : ∀ s, step s = none → P s)
    (hsome : ∀ s s', step s = some s' → P s' → P s) (s : State) : P s := by
  generalize hn : workLeft s.taskQueue = n
  induction n using Nat.strong_induction_on generalizing s with
  | _ n ih =>
    cases h : step s with
    | none => exact hnone s h
    | some s' =>
      have := step_workLeft h
      exact hsome s s' h (ih _ (by omega) s' rfl)

theorem loop_taskQueue (s : State) : (loop s).taskQueue = [] := by
  induction s using loop_induction with
  | hnone s h => rw [loop_of_step_none h]; exact (step_eq_none_iff s).mp h
  | hsome s s' h ih => rw [loop_of_step_some h]; exact ih

theorem step_emitted_append {s s' : State} (h : step s = some s') (e : List Task) :
    step { taskQueue := s.taskQueue, emitted := e ++ s.emitted } =
      some { taskQueue := s'.taskQueue, emitted := e ++ s'.emitted } := by
  obtain ⟨q, e0⟩ := s
  cases q with
  | nil => simp [step_nil] at h
  | cons t r =>
    rw [step_cons] at h ⊢
    split at h <;> rename_i hb
    · rw [if_pos hb]; simp only [Option.some.injEq] at h; subst h; rfl
    · rw [if_neg hb]; simp only [Option.some.injEq] at h; subst h; simp

theorem loop_emitted (q e : List Task) :
    (loop { taskQueue := q, emitted := e }).emitted = e ++ dispatch q := by
  unfold dispatch
  generalize hs : ({ taskQueue := q, emitted := [] } : State) = s
  have hq : q = s.taskQueue := by rw [← hs]
  have he : e = e ++ s.emitted := by rw [← hs]; simp
  rw [hq]
  conv_lhs => rw [he]
  clear hs hq he
  induction s using loop_induction generalizing e with
  | hnone s h =>
    have h' : step { taskQueue := s.taskQueue, emitted := e ++ s.emitted } = none := by
      rw [step_eq_none_iff] at h ⊢; exact h
    rw [loop_of_step_none h, loop_of_step_none h']
  | hsome s s' h ih =>
    rw [loop_of_step_some h, loop_of_step_some (step_emitted_append h e)]
    exact ih e

theorem dispatch_nil : dispatch [] = [] := by
  rw [dispatch, loop_nil]

theorem dispatch_cons (t : Task) (r : List Task) :
    dispatch (t :: r) =
      if t.burstTime > 10 then dispatch (r ++ [{ t with burstTime := t.burstTime - 10 }])
      else t :: dispatch r := by
  rw [dispatch, loop_cons]
  split
  · rfl
  · rw [loop_emitted]; rfl

/-- Induction over the working queue along the three ways the loop can go. -/
theorem dispatch_induction (P : List Task → Prop) (hnil : P [])
    (hemit : ∀ t r, t.burstTime ≤ 10 → P r → P (t :: r))
    (hback : ∀ t r, t.burstTime > 10 → P (r ++ [requeue t]) → P (t :: r))
    (q : List Task) : P q := by
  generalize hn : workLeft q = n
  induction n using Nat.strong_induction_on generalizing q with
  | _ n ih =>
    cases q with
    | nil => exact hnil
    | cons t r =>
      have hp := turns_pos t.burstTime
      rw [workLeft_cons] at hn
      by_cases hb : t.burstTime > 10
      · have hs := turns_sub t.burstTime hb
        refine hback t r hb (ih (workLeft (r ++ [requeue t])) ?_ _ rfl)
        simp only [workLeft_append, workLeft_cons, workLeft_nil, requeue]
        omega
      · exact hemit t r (by omega) (ih (workLeft r) (by omega) r rfl)

theorem dispatch_emit (t : Task) (r : List Task) (h : t.burstTime ≤ 10) :
    dispatch (t :: r) = t :: dispatch r := by
  rw [dispatch_cons, if_neg (by omega)]

theorem dispatch_back (t : Task) (r : List Task) (h : t.burstTime > 10) :
    dispatch (t :: r) = dispatch (r ++ [requeue t]) := by
  rw [dispatch_cons, if_pos h]; rfl

/-- Whatever a requeue leaves alone is printed once per entry of the queue. -/
theorem dispatch_map_perm {β : Type} (f : Task → β) (hf : ∀ t, f (requeue t) = f t)
    (q : List Task) : ((dispatch q).map f).Perm (q.map f) := by
  induction q using dispatch_induction with
  | hnil => rw [dispatch_nil]
  | hemit t r h ih =>
    rw [dispatch_emit t r h]
    simpa using ih
  | hback t r h ih =>
    rw [dispatch_back t r h]
    refine ih.trans ?_
    simp [hf, List.perm_append_singleton]

/-- One round of the rotation: the entries of `xs` that are short enough are
printed in order, the others go behind `ys` with 10 less. -/
theorem dispatch_round (xs ys : List Task) :
    dispatch (xs ++ ys) =
      xs.filter (fun t => decide (t.burstTime ≤ 10)) ++
        dispatch (ys ++ (xs.filter (fun t => decide (t.burstTime > 10))).map requeue) := by
  induction xs generalizing ys with
  | nil => simp
  | cons t xs ih =>
    by_cases hb : t.burstTime > 10
    · have h1 : ¬ t.burstTime ≤ 10 := by omega
      rw [List.cons_append, dispatch_back t _ hb, List.append_assoc, ih]
      simp [List.filter_cons, hb, h1]
    · have h1 : t.burstTime ≤ 10 := by omega
      rw [List.cons_append, dispatch_emit t _ h1, ih]
      simp [List.filter_cons, hb, h1]

end RoundRobin

/-! ## The stable order by turns -/

theorem served_of_le (t : Task) (h : t.burstTime ≤ 10) : served t = t := by
  have h1 := (turns_eq_one_iff t.burstTime).mpr h
  cases t
  simp_all [served]

theorem served_requeue (t : Task) (h : t.burstTime > 10) : served (requeue t) = served t := by
  have hs := turns_sub t.burstTime h
  simp only [served, requeue, Task.mk.injEq, true_and]
  omega

theorem orderedInsert_append_of_not {α : Type} (r : α → α → Prop) [DecidableRel r] (a : α)
    (l₁ l₂ : List α) (h : ∀ b ∈ l₁, ¬ r a b) :
    (l₁ ++ l₂).orderedInsert r a = l₁ ++ l₂.orderedInsert r a := by
  induction l₁ with
  | nil => rfl
  | cons b l₁ ih =>
    have hb : ¬ r a b := h b (List.mem_cons_self _ _)
    rw [List.cons_append, List.orderedInsert, if_neg hb,
      ih (fun c hc => h c (List.mem_cons_of_mem _ hc)), List.cons_append]

theorem orderedInsert_of_forall {α : Type} (r : α → α → Prop) [DecidableRel r] (a : α)
    (l : List α) (h : ∀ b ∈ l, r a b) : l.orderedInsert r a = a :: l := by
  cases l with
  | nil => rfl
  | cons b l => rw [List.orderedInsert, if_pos (h b (List.mem_cons_self _ _))]

/-- The stable order by turns starts with the entries that need one turn, in
input order. -/
theorem sortByTurns_split (q : List Task) :
    sortByTurns q =
      q.filter (fun t => decide (t.burstTime ≤ 10)) ++
        sortByTurns (q.filter (fun t => decide (t.burstTime > 10))) := by
  induction q with
  | nil => rfl
  | cons t q ih =>
    have hcons : sortByTurns (t :: q) =
        (sortByTurns q).orderedInsert (fun a b => turns a.burstTime ≤ turns b.burstTime) t := rfl
    rw [hcons, ih]
    by_cases hb : t.burstTime > 10
    · have h1 : ¬ t.burstTime ≤ 10 := by omega
      have ht : turns t.burstTime ≠ 1 := fun h => h1 ((turns_eq_one_iff _).mp h)
      have htp := turns_pos t.burstTime
      rw [orderedInsert_append_of_not]
      · simp only [List.filter_cons, hb, h1, decide_True, decide_False, if_true]
        simp only [Bool.false_eq_true, if_false]
        rfl
      · intro b hbm
        have hb1 : turns b.burstTime = 1 := by
          rw [turns_eq_one_iff]
          simpa using (List.mem_filter.mp hbm).2
        omega
    · have h1 : t.burstTime ≤ 10 := by omega
      have ht := (turns_eq_one_iff _).mpr h1
      rw [orderedInsert_of_forall]
      · simp [List.filter_cons, hb, h1]
      · intro b _
        have := turns_pos b.burstTime
        omega

theorem sortByTurns_map_requeue (l : List Task) (h : ∀ t ∈ l, t.burstTime > 10) :
    sortByTurns (l.map requeue) = (sortByTurns l).map requeue := by
  unfold sortByTurns
  symm
  apply List.map_insertionSort
  intro a ha b hb
  have h1 := turns_sub a.burstTime (h a ha)
  have h2 := turns_sub b.burstTime (h b hb)
  simp only [requeue]
  omega

/-- Round-Robin prints the batch in the stable order by turns, each entry with
the burst time left for its last turn. -/
theorem RoundRobin.dispatch_eq_sortByTurns (q : List Task) :
    RoundRobin.dispatch q = (sortByTurns q).map served := by
  have key : ∀ n (q : List Task), (∀ t ∈ q, turns t.burstTime ≤ n) →
      RoundRobin.dispatch q = (sortByTurns q).map served := by
    intro n
    induction n with
    | zero =>
      intro q hq
      cases q with
      | nil => rw [RoundRobin.dispatch_nil]; rfl
      | cons t q =>
        have := hq t (List.mem_cons_self _ _)
        have := turns_pos t.burstTime
        omega
    | succ n ih =>
      intro q hq
      have hround := RoundRobin.dispatch_round q []
      rw [List.append_nil, List.nil_append] at hround
      have hbig : ∀ t ∈ q.filter (fun t => decide (t.burstTime > 10)), t.burstTime > 10 := by
        intro t ht
        simpa using (List.mem_filter.mp ht).2
      have hsmall : ∀ t ∈ q.filter (fun t => decide (t.burstTime ≤ 10)), served t = t := by
        intro t ht
        exact served_of_le t (by simpa using (List.mem_filter.mp ht).2)
      rw [hround, ih, sortByTurns_map_requeue _ hbig, sortByTurns_split q, List.map_append,
        List.map_map]
      · congr 1
        · exact ((List.map_congr_left hsmall).trans (List.map_id _)).symm
        · apply List.map_congr_left
          intro t ht
          have ht' : t ∈ q.filter (fun t => decide (t.burstTime > 10)) :=
            (List.perm_insertionSort _ _).mem_iff.mp ht
          exact served_requeue t (hbig t ht')
      · intro t ht
        obtain ⟨u, hu, rfl⟩ := List.mem_map.mp ht
        have h1 := hq u (List.mem_filter.mp hu).1
        have h2 := turns_sub u.burstTime (hbig u hu)
        simp only [requeue]
        omega
  exact key (workLeft q) q (fun t ht => by
    induction q with
    | nil => simp at ht
    | cons u q ih =>
      rw [workLeft_cons]
      rcases List.mem_cons.mp ht with rfl | h
      · omega
      · have := ih h
        omega)

/-! ## `std::sort` and the two comparators -/

theorem strictWeakOrder_compareBurstTime : StrictWeakOrder SJF.CompareBurstTime := by
  refine ⟨?_, ?_, ?_⟩
  · intro a
    simp [SJF.CompareBurstTime]
  · intro a b c
    simp only [SJF.CompareBurstTime, decide_eq_true_eq]
    omega
  · intro a b c
    simp only [SJF.CompareBurstTime, decide_eq_false_iff_not]
    omega

theorem strictWeakOrder_comparePriority :
    StrictWeakOrder PriorityScheduling.ComparePriority := by
  refine ⟨?_, ?_, ?_⟩
  · intro a
    simp [PriorityScheduling.ComparePriority]
  · intro a b c
    simp only [PriorityScheduling.ComparePriority, decide_eq_true_eq]
    omega
  · intro a b c
    simp only [PriorityScheduling.ComparePriority, decide_eq_false_iff_not]
    omega

theorem StrictWeakOrder.total {comp : Task → Task → Bool} (h : StrictWeakOrder comp)
    (a b : Task) : comp b a = false ∨ comp a b = false := by
  obtain ⟨hirr, htr, _⟩ := h
  cases hba : comp b a with
  | false => exact Or.inl rfl
  | true =>
    cases hab : comp a b with
    | false => exact Or.inr rfl
    | true =>
      have := htr a b a hab hba
      rw [hirr a] at this
      exact absurd this (by simp)

theorem StrictWeakOrder.trans_not {comp : Task → Task → Bool} (h : StrictWeakOrder comp)
    (a b c : Task) (hba : comp b a = false) (hcb : comp c b = false) : comp c a = false := by
  obtain ⟨_, htr, heq⟩ := h
  cases hca : comp c a with
  | false => rfl
  | true =>
    cases hab : comp a b with
    | true =>
      have := htr c a b hca hab
      rw [hcb] at this
      exact absurd this (by simp)
    | false =>
      cases hbc : comp b c with
      | true =>
        have := htr b c a hbc hca
        rw [hba] at this
        exact absurd this (by simp)
      | false =>
        have := (heq a b c hab hba hbc hcb).2
        rw [hca] at this
        exact absurd this (by simp)

theorem sortedBy_insertionSort {comp : Task → Task → Bool} (h : StrictWeakOrder comp)
    (l : List Task) : SortedBy comp (l.insertionSort (fun a b => comp b a = false)) := by
  haveI : IsTotal Task (fun a b => comp b a = false) := ⟨fun a b => h.total a b⟩
  haveI : IsTrans Task (fun a b => comp b a = false) := ⟨fun a b c => h.trans_not a b c⟩
  exact List.sorted_insertionSort (fun a b => comp b a = false) l

theorem isStdSort_stableSort : IsStdSort stableSort := by
  intro comp h l
  exact ⟨List.perm_insertionSort _ l, sortedBy_insertionSort h l⟩

theorem isStdSort_backwardSort : IsStdSort backwardSort := by
  intro comp h l
  exact ⟨(List.perm_insertionSort _ l.reverse).trans (List.reverse_perm l),
    sortedBy_insertionSort h l.reverse⟩

theorem SJF.dispatch_eq_sort (sort : Sorter) (B : List Task) :
    SJF.dispatch sort B = sort SJF.CompareBurstTime B :=
  emitFrom_zero _

theorem PriorityScheduling.dispatch_eq_sorted (sort : Sorter) (B : List Task) :
    PriorityScheduling.dispatch sort B = sort PriorityScheduling.ComparePriority B :=
  emitFrom_zero _

/-! ## Counting pops -/

namespace RoundRobin

theorem step_workLeft_eq {s s' : State} (h : step s = some s') :
    workLeft s'.taskQueue + 1 = workLeft s.taskQueue := by
  obtain ⟨q, e⟩ := s
  cases q with
  | nil => simp [step_nil] at h
  | cons t r =>
    rw [step_cons] at h
    split at h
    · rename_i hb
      have hs := turns_sub t.burstTime hb
      simp only [Option.some.injEq] at h
      subst h
      simp only [workLeft_append, workLeft_cons, workLeft_nil]
      omega
    · rename_i hb
      have h1 := (turns_eq_one_iff t.burstTime).mpr (by omega)
      simp only [Option.some.injEq] at h
      subst h
      simp only [workLeft_cons]
      omega

theorem stepN_zero (s : State) : stepN 0 s = some s := rfl

theorem stepN_succ (n : Nat) (s : State) : stepN (n + 1) s = (step s).bind (stepN n) := rfl

theorem stepN_succ_of_step {s s' : State} (h : step s = some s') (n : Nat) :
    stepN (n + 1) s = stepN n s' := by
  rw [stepN_succ, h, Option.some_bind]

theorem stepN_add (m n : Nat) (s : State) :
    stepN (m + n) s = (stepN m s).bind (stepN n) := by
  induction m generalizing s with
  | zero => simp [stepN_zero]
  | succ m ih =>
    rw [Nat.add_right_comm, stepN_succ, stepN_succ]
    cases step s with
    | none => rfl
    | some s' => simp [ih]

/-- The loop exits after exactly `workLeft` pops, in the state `loop` returns. -/
theorem stepN_workLeft (s : State) : stepN (workLeft s.taskQueue) s = some (loop s) := by
  induction s using loop_induction with
  | hnone s h =>
    rw [loop_of_step_none h, (step_eq_none_iff s).mp h]
    rfl
  | hsome s s' h ih =>
    rw [loop_of_step_some h, ← step_workLeft_eq h, stepN_succ_of_step h]
    exact ih

theorem step_loop (s : State) : step (loop s) = none :=
  (step_eq_none_iff _).mpr (loop_taskQueue s)

/-- While every queued entry fits in one quantum, each pop prints the front
entry and leaves the rest of the queue as it was. -/
theorem stepN_of_short (n : Nat) (q e : List Task) (h : ∀ t ∈ q, t.burstTime ≤ 10)
    (hn : n ≤ q.length) :
    stepN n { taskQueue := q, emitted := e } =
      some { taskQueue := q.drop n, emitted := e ++ q.take n } := by
  induction n generalizing q e with
  | zero => simp [stepN_zero]
  | succ n ih =>
    cases q with
    | nil => simp at hn
    | cons t r =>
      have ht : ¬ t.burstTime > 10 := by
        have := h t (List.mem_cons_self _ _)
        omega
      have hstep : step { taskQueue := t :: r, emitted := e } =
          some { taskQueue := r, emitted := e ++ [t] } := by
        rw [step_cons, if_neg ht]
      rw [stepN_succ_of_step hstep,
        ih r (e ++ [t]) (fun u hu => h u (List.mem_cons_of_mem _ hu)) (by simpa using hn)]
      simp

theorem dispatch_of_short (q : List Task) (h : ∀ t ∈ q, t.burstTime ≤ 10) :
    dispatch q = q := by
  induction q with
  | nil => exact dispatch_nil
  | cons t r ih =>
    rw [dispatch_emit t r (h t (List.mem_cons_self _ _)),
      ih (fun u hu => h u (List.mem_cons_of_mem _ hu))]

/-- A pop keeps positive burst times positive. -/
theorem step_pos {s s' : State} (h : step s = some s')
    (hpos : ∀ t ∈ s.taskQueue, 0 < t.burstTime) : ∀ t ∈ s'.taskQueue, 0 < t.burstTime := by
  obtain ⟨q, e⟩ := s
  cases q with
  | nil => simp [step_nil] at h
  | cons t r =>
    rw [step_cons] at h
    split at h
    · rename_i hb
      simp only [Option.some.injEq] at h
      subst h
      intro u hu
      rcases List.mem_append.mp hu with hu | hu
      · exact hpos u (List.mem_cons_of_mem _ hu)
      · rw [List.mem_singleton] at hu
        subst hu
        show 0 < t.burstTime - 10
        omega
    · simp only [Option.some.injEq] at h
      subst h
      intro u hu
      exact hpos u (List.mem_cons_of_mem _ hu)

theorem stepN_pos (n : Nat) {s s' : State} (h : stepN n s = some s')
    (hpos : ∀ t ∈ s.taskQueue, 0 < t.burstTime) : ∀ t ∈ s'.taskQueue, 0 < t.burstTime := by
  induction n generalizing s with
  | zero =>
    rw [stepN_zero, Option.some.injEq] at h
    subst h
    exact hpos
  | succ n ih =>
    rw [stepN_succ] at h
    cases hs : step s with
    | none => rw [hs] at h; simp at h
    | some s₁ =>
      rw [hs, Option.some_bind] at h
      exact ih h (step_pos hs hpos)

end RoundRobin

/-! ## Priority with Round-Robin -/

namespace PriorityWithRR

theorem step_eq_roundRobin (s : State) : step s = RoundRobin.step s := rfl

theorem loop_exit {s : State} (h : step s = none) : loop s = s := by
  rw [loop]
  split
  · rfl
  · simp_all

theorem loop_next {s s' : State} (h : step s = some s') : loop s = loop s' := by
  rw [loop]
  split
  · simp_all
  · rename_i s'' h'
    rw [h] at h'
    simp only [Option.some.injEq] at h'
    rw [h']

theorem loop_eq_roundRobin (s : State) : loop s = RoundRobin.loop s := by
  induction s using RoundRobin.loop_induction with
  | hnone s h =>
    rw [RoundRobin.loop_of_step_none h, loop_exit ((step_eq_roundRobin s).trans h)]
  | hsome s s' h ih =>
    rw [RoundRobin.loop_of_step_some h, loop_next ((step_eq_roundRobin s).trans h)]
    exact ih

theorem dispatch_eq_roundRobin (q : List Task) : dispatch q = RoundRobin.dispatch q := by
  rw [dispatch, RoundRobin.dispatch, loop_eq_roundRobin]

end PriorityWithRR

/-! ## Round-Robin: what is printed, and in which order -/

/-- C1: `RoundRobin.scheduleTasks` prints every entry of the batch exactly
once: the multiset of names printed is the multiset of names of the batch
(also when names repeat, and also together with the priorities), and the
number of `Executing task` lines is the length of the batch. -/
theorem RoundRobin_emits_each_once (B : List Task) :
    Multiset.ofList ((RoundRobin.dispatch B).map Task.name) =
      Multiset.ofList (B.map Task.name) ∧
    Multiset.ofList ((RoundRobin.dispatch B).map (fun t => (t.name, t.priority))) =
      Multiset.ofList (B.map (fun t => (t.name, t.priority))) ∧
    (RoundRobin.dispatch B).length = B.length ∧
    (RoundRobin.scheduleTasks B).length = B.length + 2 := by
  have h1 := RoundRobin.dispatch_map_perm Task.name (fun _ => rfl) B
  have h2 := RoundRobin.dispatch_map_perm (fun t => (t.name, t.priority)) (fun _ => rfl) B
  have h3 : (RoundRobin.dispatch B).length = B.length := by
    simpa using h1.length_eq
  refine ⟨Multiset.coe_eq_coe.mpr h1, Multiset.coe_eq_coe.mpr h2, h3, ?_⟩
  simp [RoundRobin.scheduleTasks, h3]

/-- C2: Round-Robin prints the batch stably sorted by ascending `turns`: the
names printed are those of `sortByTurns B` in that order (each record printed
with the burst time left for its last turn), where `sortByTurns B` is a
permutation of `B`, ascending in `turns`, that keeps in input order every pair
of entries of which the first needs no more turns than the second. -/
theorem RoundRobin_order_by_turns (B : List Task) :
    (RoundRobin.dispatch B).map Task.name = (sortByTurns B).map Task.name ∧
    RoundRobin.dispatch B = (sortByTurns B).map served ∧
    (sortByTurns B).Perm B ∧
    (sortByTurns B).Sorted (fun a b => turns a.burstTime ≤ turns b.burstTime) ∧
    (∀ a b : Task, turns a.burstTime ≤ turns b.burstTime → List.Sublist [a, b] B →
      List.Sublist [a, b] (sortByTurns B) ∧
      List.Sublist [served a, served b] (RoundRobin.dispatch B)) := by
  have h := RoundRobin.dispatch_eq_sortByTurns B
  refine ⟨?_, h, List.perm_insertionSort _ B, ?_, ?_⟩
  · rw [h, List.map_map]
    rfl
  · haveI : IsTotal Task (fun a b => turns a.burstTime ≤ turns b.burstTime) :=
      ⟨fun a b => Nat.le_total _ _⟩
    haveI : IsTrans Task (fun a b => turns a.burstTime ≤ turns b.burstTime) :=
      ⟨fun a b c => Nat.le_trans⟩
    exact List.sorted_insertionSort _ B
  · intro a b hab hsub
    have hs : List.Sublist [a, b] (sortByTurns B) :=
      List.pair_sublist_insertionSort hab hsub
    refine ⟨hs, ?_⟩
    rw [h]
    exact hs.map served

theorem RoundRobin_order_by_turns_witness :
    List.Sublist [⟨"B", 2, 25⟩, ⟨"D", 4, 30⟩]
      (sortByTurns [⟨"A", 1, 5⟩, ⟨"B", 2, 25⟩, ⟨"C", 3, 8⟩, ⟨"D", 4, 30⟩]) ∧
    List.Sublist [served ⟨"B", 2, 25⟩, served ⟨"D", 4, 30⟩]
      (RoundRobin.dispatch [⟨"A", 1, 5⟩, ⟨"B", 2, 25⟩, ⟨"C", 3, 8⟩, ⟨"D", 4, 30⟩]) :=
  (RoundRobin_order_by_turns
      [⟨"A", 1, 5⟩, ⟨"B", 2, 25⟩, ⟨"C", 3, 8⟩, ⟨"D", 4, 30⟩]).2.2.2.2
    ⟨"B", 2, 25⟩ ⟨"D", 4, 30⟩ (by decide) (by decide)

/-! ## The sorting policies -/

/-- C3: whatever conforming `std::sort` is used, `SJF.scheduleTasks` prints a
permutation of the batch (the task records themselves, burst times untouched)
and the burst times it prints are non-decreasing. -/
theorem SJF_sorted_permutation (sort : Sorter) (hsort : IsStdSort sort) (B : List Task) :
    (SJF.dispatch sort B).Perm B ∧
    ((SJF.dispatch sort B).map Task.burstTime).Sorted (· ≤ ·) := by
  rw [SJF.dispatch_eq_sort]
  obtain ⟨hp, hs⟩ := hsort _ strictWeakOrder_compareBurstTime B
  refine ⟨hp, ?_⟩
  rw [List.Sorted, List.pairwise_map]
  refine hs.imp ?_
  intro a b hab
  simp only [SJF.CompareBurstTime, decide_eq_false_iff_not] at hab
  omega

theorem SJF_sorted_permutation_witness :
    IsStdSort stableSort ∧
    (SJF.dispatch stableSort [⟨"A", 1, 5⟩, ⟨"B", 2, 25⟩, ⟨"C", 3, 8⟩]).Perm
      [⟨"A", 1, 5⟩, ⟨"B", 2, 25⟩, ⟨"C", 3, 8⟩] ∧
    ((SJF.dispatch stableSort [⟨"A", 1, 5⟩, ⟨"B", 2, 25⟩, ⟨"C", 3, 8⟩]).map
      Task.burstTime).Sorted (· ≤ ·) :=
  ⟨isStdSort_stableSort, SJF_sorted_permutation stableSort isStdSort_stableSort _⟩

/-- C4: whatever conforming `std::sort` is used, `PriorityScheduling.scheduleTasks`
prints a permutation of the batch and the priorities it prints are
non-increasing. -/
theorem Priority_sorted_permutation (sort : Sorter) (hsort : IsStdSort sort)
    (B : List Task) :
    (PriorityScheduling.dispatch sort B).Perm B ∧
    ((PriorityScheduling.dispatch sort B).map Task.priority).Sorted (· ≥ ·) := by
  rw [PriorityScheduling.dispatch_eq_sorted]
  obtain ⟨hp, hs⟩ := hsort _ strictWeakOrder_comparePriority B
  refine ⟨hp, ?_⟩
  rw [List.Sorted, List.pairwise_map]
  refine hs.imp ?_
  intro a b hab
  simp only [PriorityScheduling.ComparePriority, decide_eq_false_iff_not] at hab
  omega

theorem Priority_sorted_permutation_witness :
    IsStdSort stableSort ∧
    (PriorityScheduling.dispatch stableSort [⟨"A", 1, 5⟩, ⟨"B", 2, 25⟩, ⟨"C", 3, 8⟩]).Perm
      [⟨"A", 1, 5⟩, ⟨"B", 2, 25⟩, ⟨"C", 3, 8⟩] ∧
    ((PriorityScheduling.dispatch stableSort [⟨"A", 1, 5⟩, ⟨"B", 2, 25⟩, ⟨"C", 3, 8⟩]).map
      Task.priority).Sorted (· ≥ ·) :=
  ⟨isStdSort_stableSort, Priority_sorted_permutation stableSort isStdSort_stableSort _⟩

/-! ## Ties under the `std::sort` of libstdc++ -/

namespace Libstdcxx

theorem unguardedLinearInsert_eq (comp : Task → Task → Bool) (val : Task) (before : List Task) :
    unguardedLinearInsert comp val before =
      before.orderedInsert (fun a b => comp a b = false) val := by
  induction before with
  | nil => rfl
  | cons next before ih =>
    rw [unguardedLinearInsert, List.orderedInsert]
    by_cases h : comp val next = true
    · rw [if_pos h, if_neg (by simp [h]), ih]
    · rw [if_neg h, if_pos (by simpa using h)]

/-- The insertion sort of libstdc++ is the stable insertion sort read from the
other end: it gives the reverse of sorting the reversed range descending. -/
theorem insertionSortLoop_eq (comp : Task → Task → Bool) (hc : StrictWeakOrder comp)
    (todo p : List Task) :
    insertionSortLoop comp (p.insertionSort (fun a b => comp a b = false)) todo =
      ((todo.reverse ++ p).insertionSort (fun a b => comp a b = false)).reverse := by
  haveI : IsTotal Task (fun a b => comp a b = false) := ⟨fun a b => hc.total b a⟩
  haveI : IsTrans Task (fun a b => comp a b = false) :=
    ⟨fun a b c hab hbc => hc.trans_not c b a hbc hab⟩
  induction todo generalizing p with
  | nil => simp [insertionSortLoop]
  | cons val todo ih =>
    have hgoal : (((val :: todo).reverse ++ p).insertionSort (fun a b => comp a b = false)) =
        ((todo.reverse ++ val :: p).insertionSort (fun a b => comp a b = false)) := by
      simp
    rw [hgoal, ← ih (val :: p)]
    have hins : (val :: p).insertionSort (fun a b => comp a b = false) =
        (p.insertionSort (fun a b => comp a b = false)).orderedInsert
          (fun a b => comp a b = false) val := rfl
    rw [insertionSortLoop]
    split
    · rename_i hguard
      congr 1
      rw [hins]
      generalize hd : p.insertionSort (fun a b => comp a b = false) = done at hguard
      have hsorted : done.Sorted (fun a b => comp a b = false) := by
        rw [← hd]
        exact List.sorted_insertionSort _ p
      cases hl : done.getLast? with
      | none => rw [hl] at hguard; simp at hguard
      | some first =>
        rw [hl] at hguard
        have hsplit : done = done.dropLast ++ [first] := by
          have := List.dropLast_append_getLast? first hl
          exact this.symm
        have hall : ∀ x ∈ done, ¬ comp val x = false := by
          intro x hx hvx
          have hxf : comp x first = false := by
            rw [hsplit] at hx hsorted
            rcases List.mem_append.mp hx with hx | hx
            · exact (List.pairwise_append.mp hsorted).2.2 x hx first (List.mem_singleton_self _)
            · rw [List.mem_singleton] at hx
              rw [hx]
              exact hc.1 first
          have := hc.trans_not first x val hxf hvx
          simp only at hguard
          rw [hguard] at this
          exact absurd this (by simp)
        have := orderedInsert_append_of_not (fun a b => comp a b = false) val done [] hall
        simpa using this.symm
    · rw [unguardedLinearInsert_eq, hins]

theorem insertionSort_eq (comp : Task → Task → Bool) (hc : StrictWeakOrder comp)
    (a : List Task) :
    insertionSort comp a = (a.reverse.insertionSort (fun a b => comp a b = false)).reverse := by
  cases a with
  | nil => rfl
  | cons first rest =>
    have := insertionSortLoop_eq comp hc rest [first]
    simpa [insertionSort] using this

theorem introsortLoop_of_short (comp : Task → Task → Bool) (depthLimit : Nat) (a : List Task)
    (first last : Nat) (h : last - first ≤ 16) :
    introsortLoop comp depthLimit a first last = a := by
  cases depthLimit with
  | zero => rw [introsortLoop, if_neg (by omega)]
  | succ d => rw [introsortLoop, if_neg (by omega)]

/-- A range of at most 16 elements only goes through the insertion sort. -/
theorem sort_of_short (comp : Task → Task → Bool) (a : List Task) (h : a.length ≤ 16) :
    sort comp a = insertionSort comp a := by
  unfold sort
  split
  · rename_i h0
    rw [List.length_eq_zero.mp h0]
    rfl
  · rw [introsortLoop_of_short comp _ a 0 a.length (by omega), finalInsertionSort,
      if_neg (by omega)]

theorem sort_short_eq (comp : Task → Task → Bool) (hc : StrictWeakOrder comp) (a : List Task)
    (h : a.length ≤ 16) :
    sort comp a = (a.reverse.insertionSort (fun a b => comp a b = false)).reverse := by
  rw [sort_of_short comp a h, insertionSort_eq comp hc]

theorem sort_short_perm (comp : Task → Task → Bool) (hc : StrictWeakOrder comp) (a : List Task)
    (h : a.length ≤ 16) : (sort comp a).Perm a := by
  rw [sort_short_eq comp hc a h]
  exact (List.reverse_perm _).trans ((List.perm_insertionSort _ _).trans (List.reverse_perm a))

theorem sort_short_sorted (comp : Task → Task → Bool) (hc : StrictWeakOrder comp)
    (a : List Task) (h : a.length ≤ 16) : SortedBy comp (sort comp a) := by
  haveI : IsTotal Task (fun a b => comp a b = false) := ⟨fun a b => hc.total b a⟩
  haveI : IsTrans Task (fun a b => comp a b = false) :=
    ⟨fun a b c hab hbc => hc.trans_not c b a hbc hab⟩
  rw [sort_short_eq comp hc a h, SortedBy, List.pairwise_reverse]
  exact List.sorted_insertionSort (fun a b => comp a b = false) a.reverse

/-- On a range of at most 16 elements, two elements neither of which compares
less than the other keep their order. -/
theorem sort_short_stable (comp : Task → Task → Bool) (hc : StrictWeakOrder comp)
    (a : List Task) (h : a.length ≤ 16) (x y : Task) (hyx : comp y x = false)
    (hsub : List.Sublist [x, y] a) : List.Sublist [x, y] (sort comp a) := by
  rw [sort_short_eq comp hc a h]
  have hrev : List.Sublist [y, x] a.reverse := by
    have := hsub.reverse
    simpa using this
  have := (List.pair_sublist_insertionSort (r := fun a b => comp a b = false) hyx hrev).reverse
  simpa using this

end Libstdcxx

/-- C5, as stated, fails: with `std::sort` as libstdc++ implements it, SJF prints
the seventeen entries of `alikeBatch`, all of burst time 5, in the order `T09`,
`T17` down to `T10`, `T01`, `T08` down to `T02`; `T01` comes before `T09` in the
batch and after it in the output. -/
theorem SJF_not_stable :
    SJF.dispatch Libstdcxx.sort alikeBatch =
      [⟨"T09", 1, 5⟩, ⟨"T17", 1, 5⟩, ⟨"T16", 1, 5⟩, ⟨"T15", 1, 5⟩,
       ⟨"T14", 1, 5⟩, ⟨"T13", 1, 5⟩, ⟨"T12", 1, 5⟩, ⟨"T11", 1, 5⟩,
       ⟨"T10", 1, 5⟩, ⟨"T01", 1, 5⟩, ⟨"T08", 1, 5⟩, ⟨"T07", 1, 5⟩,
       ⟨"T06", 1, 5⟩, ⟨"T05", 1, 5⟩, ⟨"T04", 1, 5⟩, ⟨"T03", 1, 5⟩,
       ⟨"T02", 1, 5⟩] ∧
    List.Sublist [⟨"T01", 1, 5⟩, ⟨"T09", 1, 5⟩] alikeBatch ∧
    ¬ List.Sublist [⟨"T01", 1, 5⟩, ⟨"T09", 1, 5⟩] (SJF.dispatch Libstdcxx.sort alikeBatch) ∧
    ¬ (∀ (B : List Task) (a b : Task), a.burstTime = b.burstTime → List.Sublist [a, b] B →
        List.Sublist [a, b] (SJF.dispatch Libstdcxx.sort B)) := by
  have he : SJF.dispatch Libstdcxx.sort alikeBatch =
      [⟨"T09", 1, 5⟩, ⟨"T17", 1, 5⟩, ⟨"T16", 1, 5⟩, ⟨"T15", 1, 5⟩,
       ⟨"T14", 1, 5⟩, ⟨"T13", 1, 5⟩, ⟨"T12", 1, 5⟩, ⟨"T11", 1, 5⟩,
       ⟨"T10", 1, 5⟩, ⟨"T01", 1, 5⟩, ⟨"T08", 1, 5⟩, ⟨"T07", 1, 5⟩,
       ⟨"T06", 1, 5⟩, ⟨"T05", 1, 5⟩, ⟨"T04", 1, 5⟩, ⟨"T03", 1, 5⟩,
       ⟨"T02", 1, 5⟩] := by
    rw [SJF.dispatch_eq_sort]
    decide
  have hin : List.Sublist [⟨"T01", 1, 5⟩, ⟨"T09", 1, 5⟩] alikeBatch := by decide
  have hn : ¬ List.Sublist [⟨"T01", 1, 5⟩, ⟨"T09", 1, 5⟩]
      (SJF.dispatch Libstdcxx.sort alikeBatch) := by
    rw [he]
    decide
  exact ⟨he, hin, hn, fun h => hn (h alikeBatch _ _ rfl hin)⟩

/-- C5, amended: with `std::sort` as libstdc++ implements it, SJF is a stable
sort on every batch of at most 16 entries: it prints a permutation of the batch
with non-decreasing burst times, and of two entries of equal burst time the one
that comes first in the batch is printed first. -/
theorem SJF_stable_up_to_sixteen (B : List Task) (h : B.length ≤ 16) :
    (SJF.dispatch Libstdcxx.sort B).Perm B ∧
    ((SJF.dispatch Libstdcxx.sort B).map Task.burstTime).Sorted (· ≤ ·) ∧
    (∀ a b : Task, a.burstTime = b.burstTime → List.Sublist [a, b] B →
      List.Sublist [a, b] (SJF.dispatch Libstdcxx.sort B)) := by
  rw [SJF.dispatch_eq_sort]
  refine ⟨Libstdcxx.sort_short_perm _ strictWeakOrder_compareBurstTime B h, ?_, ?_⟩
  · rw [List.Sorted, List.pairwise_map]
    refine (Libstdcxx.sort_short_sorted _ strictWeakOrder_compareBurstTime B h).imp ?_
    intro a b hab
    simp only [SJF.CompareBurstTime, decide_eq_false_iff_not] at hab
    omega
  · intro a b hab hsub
    refine Libstdcxx.sort_short_stable _ strictWeakOrder_compareBurstTime B h a b ?_ hsub
    simp only [SJF.CompareBurstTime, decide_eq_false_iff_not]
    omega

theorem SJF_stable_up_to_sixteen_witness :
    ([⟨"C", 3, 8⟩, ⟨"A", 1, 5⟩, ⟨"D", 4, 2⟩, ⟨"B", 2, 5⟩] : List Task).length ≤ 16 ∧
    List.Sublist [⟨"A", 1, 5⟩, ⟨"B", 2, 5⟩]
      (SJF.dispatch Libstdcxx.sort [⟨"C", 3, 8⟩, ⟨"A", 1, 5⟩, ⟨"D", 4, 2⟩, ⟨"B", 2, 5⟩]) :=
  ⟨by decide,
    (SJF_stable_up_to_sixteen [⟨"C", 3, 8⟩, ⟨"A", 1, 5⟩, ⟨"D", 4, 2⟩, ⟨"B", 2, 5⟩]
      (by decide)).2.2 ⟨"A", 1, 5⟩ ⟨"B", 2, 5⟩ rfl (by decide)⟩

/-- C6, as stated, fails: with `std::sort` as libstdc++ implements it, Priority
scheduling prints the seventeen entries of `alikeBatch`, all of priority 1, in
the order `T09`, `T17` down to `T10`, `T01`, `T08` down to `T02`; `T01` comes
before `T09` in the batch and after it in the output. -/
theorem Priority_not_stable :
    PriorityScheduling.dispatch Libstdcxx.sort alikeBatch =
      [⟨"T09", 1, 5⟩, ⟨"T17", 1, 5⟩, ⟨"T16", 1, 5⟩, ⟨"T15", 1, 5⟩,
       ⟨"T14", 1, 5⟩, ⟨"T13", 1, 5⟩, ⟨"T12", 1, 5⟩, ⟨"T11", 1, 5⟩,
       ⟨"T10", 1, 5⟩, ⟨"T01", 1, 5⟩, ⟨"T08", 1, 5⟩, ⟨"T07", 1, 5⟩,
       ⟨"T06", 1, 5⟩, ⟨"T05", 1, 5⟩, ⟨"T04", 1, 5⟩, ⟨"T03", 1, 5⟩,
       ⟨"T02", 1, 5⟩] ∧
    List.Sublist [⟨"T01", 1, 5⟩, ⟨"T09", 1, 5⟩] alikeBatch ∧
    ¬ List.Sublist [⟨"T01", 1, 5⟩, ⟨"T09", 1, 5⟩]
      (PriorityScheduling.dispatch Libstdcxx.sort alikeBatch) ∧
    ¬ (∀ (B : List Task) (a b : Task), a.priority = b.priority → List.Sublist [a, b] B →
        List.Sublist [a, b] (PriorityScheduling.dispatch Libstdcxx.sort B)) := by
  have he : PriorityScheduling.dispatch Libstdcxx.sort alikeBatch =
      [⟨"T09", 1, 5⟩, ⟨"T17", 1, 5⟩, ⟨"T16", 1, 5⟩, ⟨"T15", 1, 5⟩,
       ⟨"T14", 1, 5⟩, ⟨"T13", 1, 5⟩, ⟨"T12", 1, 5⟩, ⟨"T11", 1, 5⟩,
       ⟨"T10", 1, 5⟩, ⟨"T01", 1, 5⟩, ⟨"T08", 1, 5⟩, ⟨"T07", 1, 5⟩,
       ⟨"T06", 1, 5⟩, ⟨"T05", 1, 5⟩, ⟨"T04", 1, 5⟩, ⟨"T03", 1, 5⟩,
       ⟨"T02", 1, 5⟩] := by
    rw [PriorityScheduling.dispatch_eq_sorted]
    decide
  have hin : List.Sublist [⟨"T01", 1, 5⟩, ⟨"T09", 1, 5⟩] alikeBatch := by decide
  have hn : ¬ List.Sublist [⟨"T01", 1, 5⟩, ⟨"T09", 1, 5⟩]
      (PriorityScheduling.dispatch Libstdcxx.sort alikeBatch) := by
    rw [he]
    decide
  exact ⟨he, hin, hn, fun h => hn (h alikeBatch _ _ rfl hin)⟩

/-- C6, amended: with `std::sort` as libstdc++ implements it, Priority
scheduling is a stable sort on every batch of at most 16 entries: it prints a
permutation of the batch with non-increasing priorities, and of two entries of
equal priority the one that comes first in the batch is printed first. -/
theorem Priority_stable_up_to_sixteen (B : List Task) (h : B.length ≤ 16) :
    (PriorityScheduling.dispatch Libstdcxx.sort B).Perm B ∧
    ((PriorityScheduling.dispatch Libstdcxx.sort B).map Task.priority).Sorted (· ≥ ·) ∧
    (∀ a b : Task, a.priority = b.priority → List.Sublist [a, b] B →
      List.Sublist [a, b] (PriorityScheduling.dispatch Libstdcxx.sort B)) := by
  rw [PriorityScheduling.dispatch_eq_sorted]
  refine ⟨Libstdcxx.sort_short_perm _ strictWeakOrder_comparePriority B h, ?_, ?_⟩
  · rw [List.Sorted, List.pairwise_map]
    refine (Libstdcxx.sort_short_sorted _ strictWeakOrder_comparePriority B h).imp ?_
    intro a b hab
    simp only [PriorityScheduling.ComparePriority, decide_eq_false_iff_not] at hab
    omega
  · intro a b hab hsub
    refine Libstdcxx.sort_short_stable _ strictWeakOrder_comparePriority B h a b ?_ hsub
    simp only [PriorityScheduling.ComparePriority, decide_eq_false_iff_not]
    omega

theorem Priority_stable_up_to_sixteen_witness :
    ([⟨"A", 1, 5⟩, ⟨"C", 3, 8⟩, ⟨"D", 0, 2⟩, ⟨"B", 1, 8⟩] : List Task).length ≤ 16 ∧
    List.Sublist [⟨"A", 1, 5⟩, ⟨"B", 1, 8⟩]
      (PriorityScheduling.dispatch Libstdcxx.sort
        [⟨"A", 1, 5⟩, ⟨"C", 3, 8⟩, ⟨"D", 0, 2⟩, ⟨"B", 1, 8⟩]) :=
  ⟨by decide,
    (Priority_stable_up_to_sixteen [⟨"A", 1, 5⟩, ⟨"C", 3, 8⟩, ⟨"D", 0, 2⟩, ⟨"B", 1, 8⟩]
      (by decide)).2.2 ⟨"A", 1, 5⟩ ⟨"B", 1, 8⟩ rfl (by decide)⟩

/-! ## FCFS -/

/-- C7: the names `FCFS.scheduleTasks` emits are the names of the batch in
input order: the two sequences have the same length and the same element at
every position, and the lines printed are the header, one line per entry in
input order, and the closing empty line. -/
theorem FCFS_dispatch_input_order (B : List Task) :
    (FCFS.dispatch B).map Task.name = B.map Task.name ∧
    (FCFS.dispatch B).length = B.length ∧
    (∀ i : Nat, ((FCFS.dispatch B).map Task.name)[i]? = (B.map Task.name)[i]?) ∧
    FCFS.scheduleTasks B = "FCFS Scheduling:" :: B.map execLine ++ [""] := by
  have h : FCFS.dispatch B = B := emitFrom_zero B
  exact ⟨by rw [h], by rw [h], fun i => by rw [h], by rw [FCFS.scheduleTasks, h]⟩

/-! ## The quantum policies compared -/

/-- C8: `PriorityWithRR.scheduleTasks` prints the same task records, hence the
same names in the same order, as `RoundRobin.scheduleTasks`; the two outputs
differ in their header line only. -/
theorem PriorityWithRR_eq_RoundRobin (B : List Task) :
    (PriorityWithRR.dispatch B).map Task.name = (RoundRobin.dispatch B).map Task.name ∧
    PriorityWithRR.dispatch B = RoundRobin.dispatch B ∧
    (PriorityWithRR.scheduleTasks B).tail = (RoundRobin.scheduleTasks B).tail ∧
    (PriorityWithRR.scheduleTasks B).head? = some "Priority with Round-Robin Scheduling:" ∧
    (RoundRobin.scheduleTasks B).head? = some "Round-Robin Scheduling:" := by
  have h := PriorityWithRR.dispatch_eq_roundRobin B
  refine ⟨by rw [h], h, ?_, rfl, rfl⟩
  simp [PriorityWithRR.scheduleTasks, RoundRobin.scheduleTasks, h]

/-- C9: on a batch in which every burst time is at most the quantum 10,
Round-Robin prints what FCFS prints; every pop prints the front entry, so after
`n` pops the first `n` entries have been printed in input order and the queue
is the untouched rest of the batch: nothing is requeued. -/
theorem RoundRobin_eq_FCFS_of_short (B : List Task) (h : ∀ t ∈ B, t.burstTime ≤ 10) :
    (RoundRobin.dispatch B).map Task.name = (FCFS.dispatch B).map Task.name ∧
    RoundRobin.dispatch B = FCFS.dispatch B ∧
    (∀ n, n ≤ B.length →
      RoundRobin.stepN n { taskQueue := B, emitted := [] } =
        some { taskQueue := B.drop n, emitted := B.take n }) ∧
    RoundRobin.stepN (B.length + 1) { taskQueue := B, emitted := [] } = none := by
  have hd : RoundRobin.dispatch B = FCFS.dispatch B := by
    rw [RoundRobin.dispatch_of_short B h, FCFS.dispatch, emitFrom_zero]
  have hn : ∀ n, n ≤ B.length →
      RoundRobin.stepN n { taskQueue := B, emitted := [] } =
        some { taskQueue := B.drop n, emitted := B.take n } := by
    intro n hn
    rw [RoundRobin.stepN_of_short n B [] h hn, List.nil_append]
  refine ⟨by rw [hd], hd, hn, ?_⟩
  rw [RoundRobin.stepN_add, hn B.length (Nat.le_refl _), Option.some_bind, List.drop_length]
  rfl

theorem RoundRobin_eq_FCFS_of_short_witness :
    (∀ t ∈ ([⟨"A", 1, 5⟩, ⟨"C", 3, 8⟩, ⟨"E", 0, 10⟩] : List Task), t.burstTime ≤ 10) ∧
    RoundRobin.dispatch [⟨"A", 1, 5⟩, ⟨"C", 3, 8⟩, ⟨"E", 0, 10⟩] =
      FCFS.dispatch [⟨"A", 1, 5⟩, ⟨"C", 3, 8⟩, ⟨"E", 0, 10⟩] :=
  ⟨by decide,
    (RoundRobin_eq_FCFS_of_short [⟨"A", 1, 5⟩, ⟨"C", 3, 8⟩, ⟨"E", 0, 10⟩] (by decide)).2.1⟩

/-! ## Termination of the rotation -/

theorem workLeft_of_pos (q : List Task) (h : ∀ t ∈ q, 0 < t.burstTime) :
    workLeft q = (q.map (fun t => ((t.burstTime + 9) / 10).toNat)).sum := by
  induction q with
  | nil => rfl
  | cons t r ih =>
    have ht := h t (List.mem_cons_self _ _)
    rw [workLeft_cons, ih (fun u hu => h u (List.mem_cons_of_mem _ hu)), List.map_cons,
      List.sum_cons]
    congr 1
    unfold turns
    split <;> omega

/-- C10: on a batch of positive burst times the rotation terminates. Every
state the loop reaches holds positive burst times only, its measure `workLeft`
is the sum of `⌈burstTime / 10⌉` over the queue, and a pop from it either drops
the front entry from the queue (printing it) or moves it to the back with
exactly 10 less, the measure strictly decreasing either way; so the loop exits
after at most `workLeft B` pops, in the state the well-founded `loop` returns,
with an empty queue. -/
theorem RoundRobin_terminates (B : List Task) (hpos : ∀ t ∈ B, 0 < t.burstTime) :
    (∀ n s, RoundRobin.stepN n { taskQueue := B, emitted := [] } = some s →
      (∀ t ∈ s.taskQueue, 0 < t.burstTime) ∧
      workLeft s.taskQueue =
        (s.taskQueue.map (fun t => ((t.burstTime + 9) / 10).toNat)).sum ∧
      (∀ task rest, s.taskQueue = task :: rest →
        ∃ s', RoundRobin.step s = some s' ∧
          workLeft s'.taskQueue < workLeft s.taskQueue ∧
          ((task.burstTime ≤ 10 ∧ s'.taskQueue = rest ∧
              s'.emitted = s.emitted ++ [task]) ∨
           (task.burstTime > 10 ∧
              s'.taskQueue = rest ++ [{ task with burstTime := task.burstTime - 10 }] ∧
              s'.emitted = s.emitted)))) ∧
    (∃ n, n ≤ workLeft B ∧
      RoundRobin.stepN n { taskQueue := B, emitted := [] } =
        some (RoundRobin.loop { taskQueue := B, emitted := [] })) ∧
    RoundRobin.step (RoundRobin.loop { taskQueue := B, emitted := [] }) = none ∧
    (RoundRobin.loop { taskQueue := B, emitted := [] }).taskQueue = [] := by
  refine ⟨?_, ⟨workLeft B, Nat.le_refl _,
      RoundRobin.stepN_workLeft { taskQueue := B, emitted := [] }⟩,
    RoundRobin.step_loop _, RoundRobin.loop_taskQueue _⟩
  intro n s hs
  have hp := RoundRobin.stepN_pos n hs hpos
  refine ⟨hp, workLeft_of_pos _ hp, ?_⟩
  intro task rest hq
  obtain ⟨q, e⟩ := s
  simp only at hq
  subst hq
  by_cases hb : task.burstTime > 10
  · have hstep : RoundRobin.step { taskQueue := task :: rest, emitted := e } =
        some { taskQueue := rest ++ [{ task with burstTime := task.burstTime - 10 }],
               emitted := e } := by
      rw [RoundRobin.step_cons, if_pos hb]
    exact ⟨_, hstep, RoundRobin.step_workLeft hstep, Or.inr ⟨hb, rfl, rfl⟩⟩
  · have hstep : RoundRobin.step { taskQueue := task :: rest, emitted := e } =
        some { taskQueue := rest, emitted := e ++ [task] } := by
      rw [RoundRobin.step_cons, if_neg hb]
    exact ⟨_, hstep, RoundRobin.step_workLeft hstep, Or.inl ⟨by omega, rfl, rfl⟩⟩

theorem RoundRobin_terminates_witness :
    (∀ t ∈ ([⟨"A", 1, 5⟩, ⟨"B", 2, 25⟩, ⟨"C", 3, 8⟩] : List Task), 0 < t.burstTime) ∧
    RoundRobin.step (RoundRobin.loop
      { taskQueue := [⟨"A", 1, 5⟩, ⟨"B", 2, 25⟩, ⟨"C", 3, 8⟩], emitted := [] }) = none :=
  ⟨by decide,
    (RoundRobin_terminates [⟨"A", 1, 5⟩, ⟨"B", 2, 25⟩, ⟨"C", 3, 8⟩] (by decide)).2.2.1⟩

/-! ## Requeues and work conservation -/

theorem totalBurst_nil : totalBurst [] = 0 := rfl

theorem totalBurst_cons (t : Task) (q : List Task) :
    totalBurst (t :: q) = t.burstTime + totalBurst q := by
  simp [totalBurst]

theorem totalBurst_append (q r : List Task) :
    totalBurst (q ++ r) = totalBurst q + totalBurst r := by
  simp [totalBurst]

namespace RoundRobin

/-- The two ways a pop can go. -/
theorem step_some_cases {s s' : State} (h : step s = some s') :
    ∃ task rest, s.taskQueue = task :: rest ∧
      ((task.burstTime > 10 ∧
          s' = { taskQueue := rest ++ [requeue task], emitted := s.emitted }) ∨
       (task.burstTime ≤ 10 ∧
          s' = { taskQueue := rest, emitted := s.emitted ++ [task] })) := by
  obtain ⟨q, e⟩ := s
  cases q with
  | nil => simp [step_nil] at h
  | cons t r =>
    rw [step_cons] at h
    refine ⟨t, r, rfl, ?_⟩
    split at h
    · rename_i hb
      simp only [Option.some.injEq] at h
      exact Or.inl ⟨hb, h.symm⟩
    · rename_i hb
      simp only [Option.some.injEq] at h
      exact Or.inr ⟨by omega, h.symm⟩

theorem requeues_zero (s : State) : requeues 0 s = 0 := rfl

theorem requeues_back (n : Nat) (t : Task) (r e : List Task) (h : t.burstTime > 10) :
    requeues (n + 1) { taskQueue := t :: r, emitted := e } =
      1 + requeues n { taskQueue := r ++ [requeue t], emitted := e } := by
  simp only [requeues, step_cons, if_pos h, timeQuantum]
  rfl

theorem requeues_emit (n : Nat) (t : Task) (r e : List Task) (h : t.burstTime ≤ 10) :
    requeues (n + 1) { taskQueue := t :: r, emitted := e } =
      requeues n { taskQueue := r, emitted := e ++ [t] } := by
  have h1 : ¬ t.burstTime > 10 := by omega
  simp only [requeues, step_cons, if_neg h1, timeQuantum]
  omega

theorem stepN_back (n : Nat) (t : Task) (r e : List Task) (h : t.burstTime > 10) :
    stepN (n + 1) { taskQueue := t :: r, emitted := e } =
      stepN n { taskQueue := r ++ [requeue t], emitted := e } :=
  stepN_succ_of_step (by rw [step_cons, if_pos h]; rfl) n

theorem stepN_emit (n : Nat) (t : Task) (r e : List Task) (h : t.burstTime ≤ 10) :
    stepN (n + 1) { taskQueue := t :: r, emitted := e } =
      stepN n { taskQueue := r, emitted := e ++ [t] } :=
  stepN_succ_of_step (by rw [step_cons, if_neg (by omega)]) n

theorem stepN_nil_succ (n : Nat) (e : List Task) :
    stepN (n + 1) { taskQueue := [], emitted := e } = none := rfl

/-- Work conservation along any run of the loop. -/
theorem stepN_totalBurst (n : Nat) {s s' : State} (h : stepN n s = some s') :
    totalBurst s'.taskQueue + 10 * (requeues n s : Int) + totalBurst s'.emitted =
      totalBurst s.taskQueue + totalBurst s.emitted := by
  induction n generalizing s with
  | zero =>
    rw [stepN_zero, Option.some.injEq] at h
    subst h
    simp [requeues_zero]
  | succ n ih =>
    obtain ⟨q, e⟩ := s
    cases q with
    | nil => simp [stepN_nil_succ] at h
    | cons t r =>
      by_cases hb : t.burstTime > 10
      · rw [stepN_back n t r e hb] at h
        have := ih h
        rw [requeues_back n t r e hb]
        simp only [totalBurst_append, totalBurst_cons, totalBurst_nil, requeue] at this ⊢
        push_cast
        omega
      · have hb' : t.burstTime ≤ 10 := by omega
        rw [stepN_emit n t r e hb'] at h
        have := ih h
        rw [requeues_emit n t r e hb']
        simp only [totalBurst_append, totalBurst_cons, totalBurst_nil] at this ⊢
        omega

/-- Every pop is a requeue or a print. -/
theorem stepN_count (n : Nat) {s s' : State} (h : stepN n s = some s') :
    requeues n s + s'.emitted.length = n + s.emitted.length := by
  induction n generalizing s with
  | zero =>
    rw [stepN_zero, Option.some.injEq] at h
    subst h
    simp [requeues_zero]
  | succ n ih =>
    obtain ⟨q, e⟩ := s
    cases q with
    | nil => simp [stepN_nil_succ] at h
    | cons t r =>
      by_cases hb : t.burstTime > 10
      · rw [stepN_back n t r e hb] at h
        have := ih h
        rw [requeues_back n t r e hb]
        simp only at this ⊢
        omega
      · have hb' : t.burstTime ≤ 10 := by omega
        rw [stepN_emit n t r e hb'] at h
        have := ih h
        rw [requeues_emit n t r e hb']
        simp only [List.length_append, List.length_singleton] at this ⊢
        omega

theorem dispatch_length (q : List Task) : (dispatch q).length = q.length := by
  simpa using (dispatch_map_perm Task.name (fun _ => rfl) q).length_eq

/-- Over the whole run the requeues are the pops that do not print. -/
theorem requeues_workLeft (B : List Task) :
    requeues (workLeft B) { taskQueue := B, emitted := [] } + B.length = workLeft B := by
  have h := stepN_count (workLeft B) (stepN_workLeft { taskQueue := B, emitted := [] })
  have hl : (loop { taskQueue := B, emitted := [] }).emitted.length = B.length :=
    dispatch_length B
  rw [hl] at h
  simpa using h

end RoundRobin

namespace RoundRobin

/-- Every pop takes exactly one turn off the work left. -/
theorem stepN_workLeft_add (n : Nat) {s s' : State} (h : stepN n s = some s') :
    workLeft s'.taskQueue + n = workLeft s.taskQueue := by
  induction n generalizing s with
  | zero =>
    rw [stepN_zero, Option.some.injEq] at h
    subst h
    rfl
  | succ n ih =>
    rw [stepN_succ] at h
    cases hs : step s with
    | none => rw [hs] at h; simp at h
    | some s₁ =>
      rw [hs, Option.some_bind] at h
      have h1 := ih h
      have h2 := step_workLeft_eq hs
      omega

theorem workLeft_eq_zero_iff (q : List Task) : workLeft q = 0 ↔ q = [] := by
  cases q with
  | nil => simp [workLeft_nil]
  | cons t r =>
    have := turns_pos t.burstTime
    rw [workLeft_cons]
    simp
    omega

/-- The loop can make its `n`-th pop for every `n` up to the work left. -/
theorem stepN_of_le (n : Nat) (s : State) (h : n ≤ workLeft s.taskQueue) :
    ∃ s', stepN n s = some s' := by
  have hw := stepN_workLeft s
  obtain ⟨m, hm⟩ := Nat.exists_eq_add_of_le h
  rw [hm, stepN_add] at hw
  cases hn : stepN n s with
  | none => rw [hn] at hw; simp at hw
  | some s' => exact ⟨s', rfl⟩

end RoundRobin

theorem sum_turns_pred (B : List Task) :
    (B.map (fun t => turns t.burstTime - 1)).sum + B.length = workLeft B := by
  induction B with
  | nil => rfl
  | cons t r ih =>
    have := turns_pos t.burstTime
    rw [workLeft_cons, List.map_cons, List.sum_cons, List.length_cons]
    omega

theorem turns_eq_ceil (b : Int) :
    (turns b : Int) = if b ≤ 10 then 1 else ⌈(b : ℚ) / 10⌉ := by
  unfold turns
  split
  · simp
  · rename_i hb
    have hz : ⌈(b : ℚ) / 10⌉ = (b + 9) / 10 := by
      rw [Int.ceil_eq_iff]
      have h1 : 10 * ((b + 9) / 10) - 10 < b := by omega
      have h2 : b ≤ 10 * ((b + 9) / 10) := by omega
      have h1' : (10 : ℚ) * (((b + 9) / 10 : Int) : ℚ) - 10 < (b : ℚ) := by exact_mod_cast h1
      have h2' : (b : ℚ) ≤ 10 * (((b + 9) / 10 : Int) : ℚ) := by exact_mod_cast h2
      constructor
      · linarith
      · linarith
    rw [hz]
    omega

/-! ## Work conservation -/

/-- C11: work conservation holds at every state the Round-Robin loop reaches
(and it reaches one for every number of pops up to the end of the run): the
burst times left in the working queue, plus 10 for each requeue performed so
far, plus the burst times with which the entries emitted so far were printed,
add up to the sum of the original burst times of the batch. -/
theorem RoundRobin_work_conservation (B : List Task) :
    (∀ n s, RoundRobin.stepN n { taskQueue := B, emitted := [] } = some s →
      totalBurst s.taskQueue +
          10 * (RoundRobin.requeues n { taskQueue := B, emitted := [] } : Int) +
          totalBurst s.emitted = totalBurst B) ∧
    (∀ n, n ≤ workLeft B →
      ∃ s, RoundRobin.stepN n { taskQueue := B, emitted := [] } = some s) := by
  refine ⟨?_, fun n hn => RoundRobin.stepN_of_le n _ hn⟩
  intro n s h
  have := RoundRobin.stepN_totalBurst n h
  simpa [totalBurst_nil] using this

theorem RoundRobin_work_conservation_witness :
    totalBurst [⟨"C", 3, 8⟩, ⟨"B", 2, 15⟩] +
        10 * (RoundRobin.requeues 2
          { taskQueue := [⟨"A", 1, 5⟩, ⟨"B", 2, 25⟩, ⟨"C", 3, 8⟩], emitted := [] } : Int) +
        totalBurst [⟨"A", 1, 5⟩] =
      totalBurst [⟨"A", 1, 5⟩, ⟨"B", 2, 25⟩, ⟨"C", 3, 8⟩] :=
  (RoundRobin_work_conservation [⟨"A", 1, 5⟩, ⟨"B", 2, 25⟩, ⟨"C", 3, 8⟩]).1 2
    { taskQueue := [⟨"C", 3, 8⟩, ⟨"B", 2, 15⟩], emitted := [⟨"A", 1, 5⟩] } (by decide)

/-! ## The empty batch -/

/-- C12: on the empty batch every policy prints no task at all, only its header
and the closing empty line; the two rotation loops exit without a single pop.
The policies are total functions, so there is no error to report. -/
theorem empty_batch_empty_dispatch (sort : Sorter) (hsort : IsStdSort sort) :
    (FCFS.dispatch [] = [] ∧ SJF.dispatch sort [] = [] ∧
      PriorityScheduling.dispatch sort [] = [] ∧ RoundRobin.dispatch [] = [] ∧
      PriorityWithRR.dispatch [] = []) ∧
    (FCFS.scheduleTasks [] = ["FCFS Scheduling:", ""] ∧
      SJF.scheduleTasks sort [] = ["SJF Scheduling:", ""] ∧
      PriorityScheduling.scheduleTasks sort [] = ["Priority Scheduling:", ""] ∧
      RoundRobin.scheduleTasks [] = ["Round-Robin Scheduling:", ""] ∧
      PriorityWithRR.scheduleTasks [] = ["Priority with Round-Robin Scheduling:", ""]) ∧
    RoundRobin.step { taskQueue := [], emitted := [] } = none ∧
    PriorityWithRR.step { taskQueue := [], emitted := [] } = none := by
  have h1 : FCFS.dispatch [] = [] := emitFrom_zero []
  have h2 : SJF.dispatch sort [] = [] := by
    rw [SJF.dispatch_eq_sort]
    exact List.Perm.eq_nil (hsort _ strictWeakOrder_compareBurstTime []).1
  have h3 : PriorityScheduling.dispatch sort [] = [] := by
    rw [PriorityScheduling.dispatch_eq_sorted]
    exact List.Perm.eq_nil (hsort _ strictWeakOrder_comparePriority []).1
  have h4 : RoundRobin.dispatch [] = [] := RoundRobin.dispatch_nil
  have h5 : PriorityWithRR.dispatch [] = [] := by
    rw [PriorityWithRR.dispatch_eq_roundRobin, h4]
  refine ⟨⟨h1, h2, h3, h4, h5⟩, ⟨?_, ?_, ?_, ?_, ?_⟩, rfl, rfl⟩
  · rw [FCFS.scheduleTasks, h1]; rfl
  · rw [SJF.scheduleTasks, h2]; rfl
  · rw [PriorityScheduling.scheduleTasks, h3]; rfl
  · rw [RoundRobin.scheduleTasks, h4]; rfl
  · rw [PriorityWithRR.scheduleTasks, h5]; rfl

theorem empty_batch_empty_dispatch_witness :
    IsStdSort stableSort ∧ SJF.dispatch stableSort [] = [] ∧
    PriorityScheduling.scheduleTasks stableSort [] = ["Priority Scheduling:", ""] :=
  ⟨isStdSort_stableSort,
    (empty_batch_empty_dispatch stableSort isStdSort_stableSort).1.2.1,
    (empty_batch_empty_dispatch stableSort isStdSort_stableSort).2.1.2.2.1⟩

/-! ## Priority is not consulted by the rotation -/

/-- The rotation looks at names and burst times only. -/
theorem RoundRobin.dispatch_key_congr (q q' : List Task)
    (h : q.map (fun t => (t.name, t.burstTime)) = q'.map (fun t => (t.name, t.burstTime))) :
    (RoundRobin.dispatch q).map (fun t => (t.name, t.burstTime)) =
      (RoundRobin.dispatch q').map (fun t => (t.name, t.burstTime)) := by
  induction q using RoundRobin.dispatch_induction generalizing q' with
  | hnil =>
    cases q' with
    | nil => rfl
    | cons t' r' => simp at h
  | hemit t r hb ih =>
    cases q' with
    | nil => simp at h
    | cons t' r' =>
      simp only [List.map_cons, List.cons.injEq, Prod.mk.injEq] at h
      obtain ⟨⟨hn, hbt⟩, hr⟩ := h
      rw [RoundRobin.dispatch_emit t r hb, RoundRobin.dispatch_emit t' r' (by omega)]
      simp only [List.map_cons, hn, hbt, ih r' hr]
  | hback t r hb ih =>
    cases q' with
    | nil => simp at h
    | cons t' r' =>
      simp only [List.map_cons, List.cons.injEq, Prod.mk.injEq] at h
      obtain ⟨⟨hn, hbt⟩, hr⟩ := h
      rw [RoundRobin.dispatch_back t r hb, RoundRobin.dispatch_back t' r' (by omega)]
      apply ih
      simp only [List.map_append, hr, List.map_cons, List.map_nil, requeue, hn, hbt]

/-- C13: Priority-with-Round-Robin does not consult priority: on two batches
that agree position by position on name and burst time (and so have the same
length), whatever their priorities, it prints the same names in the same
order, and the same lines. -/
theorem PriorityWithRR_ignores_priority (B B' : List Task)
    (h : List.Forall₂ (fun a b => a.name = b.name ∧ a.burstTime = b.burstTime) B B') :
    (PriorityWithRR.dispatch B).map Task.name = (PriorityWithRR.dispatch B').map Task.name ∧
    PriorityWithRR.scheduleTasks B = PriorityWithRR.scheduleTasks B' := by
  have hk : B.map (fun t => (t.name, t.burstTime)) =
      B'.map (fun t => (t.name, t.burstTime)) := by
    induction h with
    | nil => rfl
    | cons hab _ ih => simp only [List.map_cons, hab.1, hab.2, ih]
  have hd := RoundRobin.dispatch_key_congr B B' hk
  have hn : (PriorityWithRR.dispatch B).map Task.name =
      (PriorityWithRR.dispatch B').map Task.name := by
    rw [PriorityWithRR.dispatch_eq_roundRobin, PriorityWithRR.dispatch_eq_roundRobin]
    have := congrArg (List.map Prod.fst) hd
    simpa [List.map_map, Function.comp_def] using this
  refine ⟨hn, ?_⟩
  have hl : (PriorityWithRR.dispatch B).map execLine =
      (PriorityWithRR.dispatch B').map execLine := by
    have := congrArg (List.map (fun n => "Executing task: " ++ n)) hn
    simpa [List.map_map, Function.comp_def, execLine] using this
  rw [PriorityWithRR.scheduleTasks, PriorityWithRR.scheduleTasks, hl]

theorem PriorityWithRR_ignores_priority_witness :
    (PriorityWithRR.dispatch [⟨"A", 1, 5⟩, ⟨"B", 2, 25⟩, ⟨"C", 3, 8⟩]).map Task.name =
      (PriorityWithRR.dispatch [⟨"A", 9, 5⟩, ⟨"B", 0, 25⟩, ⟨"C", -4, 8⟩]).map Task.name :=
  (PriorityWithRR_ignores_priority [⟨"A", 1, 5⟩, ⟨"B", 2, 25⟩, ⟨"C", 3, 8⟩]
    [⟨"A", 9, 5⟩, ⟨"B", 0, 25⟩, ⟨"C", -4, 8⟩]
    (List.Forall₂.cons ⟨rfl, rfl⟩ (List.Forall₂.cons ⟨rfl, rfl⟩
      (List.Forall₂.cons ⟨rfl, rfl⟩ List.Forall₂.nil)))).1

/-! ## Batches without ties, and the worked scenario -/

/-- Two arrangements of the same entries that show the same keys in the same
order are equal, when no key occurs twice. -/
theorem perm_eq_of_map_eq {α β : Type} (f : α → β) (l₁ l₂ : List α) (hp : l₁.Perm l₂)
    (hm : l₁.map f = l₂.map f) (hnd : (l₂.map f).Nodup) : l₁ = l₂ := by
  induction l₁ generalizing l₂ with
  | nil => exact (List.Perm.nil_eq hp)
  | cons a t ih =>
    cases l₂ with
    | nil => exact absurd hp.length_eq (by simp)
    | cons b u =>
      simp only [List.map_cons, List.cons.injEq] at hm
      obtain ⟨hab, htu⟩ := hm
      rw [List.map_cons, List.nodup_cons] at hnd
      have ha : a ∈ b :: u := hp.subset (List.mem_cons_self _ _)
      have hab' : a = b := by
        rcases List.mem_cons.mp ha with h | h
        · exact h
        · exact absurd (hab ▸ List.mem_map_of_mem f h) hnd.1
      subst hab'
      rw [ih u (List.Perm.cons_inv hp) htu hnd.2]

/-- On a batch in which no key occurs twice every conforming `std::sort` gives
the result of the stable insertion sort. -/
theorem sort_eq_stableSort_of_nodup (sort : Sorter) (hsort : IsStdSort sort)
    (comp : Task → Task → Bool) (hc : StrictWeakOrder comp) (key : Task → Int)
    (hkey : ∀ a b, comp a b = decide (key a < key b)) (l : List Task)
    (hnd : (l.map key).Nodup) : sort comp l = stableSort comp l := by
  obtain ⟨hp₁, hs₁⟩ := hsort comp hc l
  obtain ⟨hp₂, hs₂⟩ := isStdSort_stableSort comp hc l
  have hsorted : ∀ m : List Task, SortedBy comp m → (m.map key).Sorted (· ≤ ·) := by
    intro m hm
    rw [List.Sorted, List.pairwise_map]
    refine hm.imp ?_
    intro a b hab
    rw [hkey, decide_eq_false_iff_not] at hab
    omega
  have hkeys : (sort comp l).map key = (stableSort comp l).map key :=
    List.eq_of_perm_of_sorted ((hp₁.trans hp₂.symm).map key) (hsorted _ hs₁) (hsorted _ hs₂)
  exact perm_eq_of_map_eq key _ _ (hp₁.trans hp₂.symm) hkeys
    ((hp₂.map key).nodup_iff.mpr hnd)

/-- C14: on the batch `A 1 5`, `B 2 25`, `C 3 8` the names are printed in the
orders FCFS `A, B, C`; SJF `A, C, B`; Priority `C, B, A` (for every conforming
`std::sort`, the keys being distinct); Round-Robin `A, C, B`, where `B` is
requeued twice, with 15 and then 5 left, before it is printed by the fifth and
last pop. -/
theorem example_batch_orders (sort : Sorter) (hsort : IsStdSort sort) :
    (FCFS.dispatch exampleBatch).map Task.name = ["A", "B", "C"] ∧
    (SJF.dispatch sort exampleBatch).map Task.name = ["A", "C", "B"] ∧
    (PriorityScheduling.dispatch sort exampleBatch).map Task.name = ["C", "B", "A"] ∧
    (RoundRobin.dispatch exampleBatch).map Task.name = ["A", "C", "B"] ∧
    RoundRobin.stepN 1 { taskQueue := exampleBatch, emitted := [] } =
      some { taskQueue := [⟨"B", 2, 25⟩, ⟨"C", 3, 8⟩], emitted := [⟨"A", 1, 5⟩] } ∧
    RoundRobin.stepN 2 { taskQueue := exampleBatch, emitted := [] } =
      some { taskQueue := [⟨"C", 3, 8⟩, ⟨"B", 2, 15⟩], emitted := [⟨"A", 1, 5⟩] } ∧
    RoundRobin.stepN 3 { taskQueue := exampleBatch, emitted := [] } =
      some { taskQueue := [⟨"B", 2, 15⟩], emitted := [⟨"A", 1, 5⟩, ⟨"C", 3, 8⟩] } ∧
    RoundRobin.stepN 4 { taskQueue := exampleBatch, emitted := [] } =
      some { taskQueue := [⟨"B", 2, 5⟩], emitted := [⟨"A", 1, 5⟩, ⟨"C", 3, 8⟩] } ∧
    RoundRobin.stepN 5 { taskQueue := exampleBatch, emitted := [] } =
      some { taskQueue := [], emitted := [⟨"A", 1, 5⟩, ⟨"C", 3, 8⟩, ⟨"B", 2, 5⟩] } ∧
    RoundRobin.stepN 6 { taskQueue := exampleBatch, emitted := [] } = none ∧
    RoundRobin.requeues 5 { taskQueue := exampleBatch, emitted := [] } = 2 := by
  have hf : FCFS.dispatch exampleBatch = exampleBatch := emitFrom_zero _
  have hs : SJF.dispatch sort exampleBatch = stableSort SJF.CompareBurstTime exampleBatch := by
    rw [SJF.dispatch_eq_sort]
    exact sort_eq_stableSort_of_nodup sort hsort _ strictWeakOrder_compareBurstTime
      Task.burstTime (fun _ _ => rfl) exampleBatch (by decide)
  have hp : PriorityScheduling.dispatch sort exampleBatch =
      stableSort PriorityScheduling.ComparePriority exampleBatch := by
    rw [PriorityScheduling.dispatch_eq_sorted]
    refine sort_eq_stableSort_of_nodup sort hsort _ strictWeakOrder_comparePriority
      (fun t => - t.priority) ?_ exampleBatch (by decide)
    intro a b
    simp only [PriorityScheduling.ComparePriority, decide_eq_decide]
    omega
  have h5 : RoundRobin.stepN 5 { taskQueue := exampleBatch, emitted := [] } =
      some { taskQueue := [], emitted := [⟨"A", 1, 5⟩, ⟨"C", 3, 8⟩, ⟨"B", 2, 5⟩] } := by
    decide
  have hr : RoundRobin.dispatch exampleBatch = [⟨"A", 1, 5⟩, ⟨"C", 3, 8⟩, ⟨"B", 2, 5⟩] := by
    have hw := RoundRobin.stepN_workLeft { taskQueue := exampleBatch, emitted := [] }
    have h5' : workLeft exampleBatch = 5 := by decide
    simp only [h5'] at hw
    rw [h5, Option.some.injEq] at hw
    rw [RoundRobin.dispatch, ← hw]
  refine ⟨?_, ?_, ?_, ?_, by decide, by decide, by decide, by decide, h5, by decide,
    by decide⟩
  · rw [hf]; decide
  · rw [hs]; decide
  · rw [hp]; decide
  · rw [hr]; decide

theorem example_batch_orders_witness :
    IsStdSort backwardSort ∧
    (SJF.dispatch backwardSort exampleBatch).map Task.name = ["A", "C", "B"] ∧
    (PriorityScheduling.dispatch backwardSort exampleBatch).map Task.name =
      ["C", "B", "A"] :=
  ⟨isStdSort_backwardSort,
    (example_batch_orders backwardSort isStdSort_backwardSort).2.1,
    (example_batch_orders backwardSort isStdSort_backwardSort).2.2.1⟩

/-! ## The program around the policies -/

namespace RoundRobin

theorem callStep_nil (q : Nat) (m : Memory) (h : m.object q = []) : callStep q m = none := by
  simp [callStep, h]

theorem callStep_cons (q : Nat) (m : Memory) (t : Task) (r : List Task)
    (h : m.object q = t :: r) :
    callStep q m =
      if t.burstTime > 10 then some (m.write q (r ++ [requeue t]))
      else some ((m.write q r).print [execLine t]) := by
  simp only [callStep, h, timeQuantum]
  split
  · congr 1
    simp only [Memory.write, if_true, requeue, Memory.mk.injEq, and_true]
    funext b
    by_cases hb : b = q
    · simp [hb]
    · simp [hb]
  · rfl

theorem callLoop_of_none {q : Nat} {m : Memory} (h : callStep q m = none) :
    callLoop q m = m := by
  rw [callLoop]
  split
  · rfl
  · simp_all

theorem callLoop_of_some {q : Nat} {m m' : Memory} (h : callStep q m = some m') :
    callLoop q m = callLoop q m' := by
  rw [callLoop]
  split
  · simp_all
  · rename_i m'' h'
    rw [h] at h'
    simp only [Option.some.injEq] at h'
    rw [h']

/-- What the rotation does to the memory: it allocates nothing, changes no
container but its own deque, and prints the dispatch order of what the deque
held. -/
theorem callLoop_spec (q : Nat) (m : Memory) :
    (callLoop q m).next = m.next ∧
    (∀ a, a ≠ q → (callLoop q m).object a = m.object a) ∧
    (callLoop q m).cout = m.cout ++ (dispatch (m.object q)).map execLine := by
  generalize hn : workLeft (m.object q) = n
  induction n using Nat.strong_induction_on generalizing m with
  | _ n ih =>
    cases hq : m.object q with
    | nil =>
      rw [callLoop_of_none (callStep_nil q m hq), dispatch_nil]
      simp
    | cons t r =>
      have hstep := callStep_cons q m t r hq
      have hp := turns_pos t.burstTime
      rw [hq, workLeft_cons] at hn
      by_cases hb : t.burstTime > 10
      · rw [if_pos hb] at hstep
        have hs := turns_sub t.burstTime hb
        have hobj : (m.write q (r ++ [requeue t])).object q = r ++ [requeue t] := by
          simp [Memory.write]
        obtain ⟨h1, h2, h3⟩ := ih (workLeft (r ++ [requeue t]))
          (by simp only [workLeft_append, workLeft_cons, workLeft_nil, requeue]; omega)
          (m.write q (r ++ [requeue t])) (by rw [hobj])
        rw [callLoop_of_some hstep, dispatch_back t r hb]
        refine ⟨h1, ?_, ?_⟩
        · intro a ha
          rw [h2 a ha]
          simp [Memory.write, ha]
        · rw [h3, hobj]
          rfl
      · rw [if_neg hb] at hstep
        have hobj : ((m.write q r).print [execLine t]).object q = r := by
          simp [Memory.write, Memory.print]
        obtain ⟨h1, h2, h3⟩ := ih (workLeft r) (by omega)
          ((m.write q r).print [execLine t]) (by rw [hobj])
        rw [callLoop_of_some hstep, dispatch_emit t r (by omega)]
        refine ⟨h1, ?_, ?_⟩
        · intro a ha
          rw [h2 a ha]
          simp [Memory.write, Memory.print, ha]
        · rw [h3, hobj]
          simp [Memory.write, Memory.print]

/-- The call of Round-Robin constructs one container, changes none that existed
and prints its block for the entries of the container `tasks`. -/
theorem call_spec_roundRobin (tasks : Nat) (m : Memory) :
    (call tasks m).next = m.next + 1 ∧
    (∀ a, a < m.next → (call tasks m).object a = m.object a) ∧
    (call tasks m).cout = m.cout ++ scheduleTasks (m.object tasks) := by
  obtain ⟨h1, h2, h3⟩ := callLoop_spec m.next
    (((m.print ["Round-Robin Scheduling:"]).alloc
      ((m.print ["Round-Robin Scheduling:"]).object tasks)).1)
  refine ⟨?_, ?_, ?_⟩
  · simp only [call, Memory.print, Memory.alloc] at h1 ⊢
    exact h1
  · intro a ha
    have hne : a ≠ m.next := by omega
    have := h2 a hne
    simp only [call, Memory.print, Memory.alloc, if_neg hne] at this ⊢
    exact this
  · simp only [call, Memory.print, Memory.alloc, if_true, scheduleTasks] at h3 ⊢
    rw [h3]
    simp

end RoundRobin

namespace PriorityWithRR

theorem callStep_eq_roundRobin (q : Nat) (m : Memory) :
    callStep q m = RoundRobin.callStep q m := rfl

theorem callLoop_exit {q : Nat} {m : Memory} (h : callStep q m = none) :
    callLoop q m = m := by
  rw [callLoop]
  split
  · rfl
  · simp_all

theorem callLoop_next {q : Nat} {m m' : Memory} (h : callStep q m = some m') :
    callLoop q m = callLoop q m' := by
  rw [callLoop]
  split
  · simp_all
  · rename_i m'' h'
    rw [h] at h'
    simp only [Option.some.injEq] at h'
    rw [h']

theorem callLoop_eq_roundRobin (q : Nat) (m : Memory) :
    callLoop q m = RoundRobin.callLoop q m := by
  generalize hn : workLeft (m.object q) = n
  induction n using Nat.strong_induction_on generalizing m with
  | _ n ih =>
    cases hq : m.object q with
    | nil =>
      have h := RoundRobin.callStep_nil q m hq
      rw [RoundRobin.callLoop_of_none h, callLoop_exit ((callStep_eq_roundRobin q m).trans h)]
    | cons t r =>
      have hstep := RoundRobin.callStep_cons q m t r hq
      have hp := turns_pos t.burstTime
      rw [hq, workLeft_cons] at hn
      by_cases hb : t.burstTime > 10
      · rw [if_pos hb] at hstep
        have hs := turns_sub t.burstTime hb
        have hobj : (m.write q (r ++ [requeue t])).object q = r ++ [requeue t] := by
          simp [Memory.write]
        rw [RoundRobin.callLoop_of_some hstep,
          callLoop_next ((callStep_eq_roundRobin q m).trans hstep)]
        exact ih (workLeft (r ++ [requeue t]))
          (by simp only [workLeft_append, workLeft_cons, workLeft_nil, requeue]; omega)
          _ (by rw [hobj])
      · rw [if_neg hb] at hstep
        have hobj : ((m.write q r).print [execLine t]).object q = r := by
          simp [Memory.write, Memory.print]
        rw [RoundRobin.callLoop_of_some hstep,
          callLoop_next ((callStep_eq_roundRobin q m).trans hstep)]
        exact ih (workLeft r) (by omega) _ (by rw [hobj])

theorem call_spec_priorityWithRR (tasks : Nat) (m : Memory) :
    (call tasks m).next = m.next + 1 ∧
    (∀ a, a < m.next → (call tasks m).object a = m.object a) ∧
    (call tasks m).cout = m.cout ++ scheduleTasks (m.object tasks) := by
  obtain ⟨h1, h2, h3⟩ := RoundRobin.callLoop_spec m.next
    (((m.print ["Priority with Round-Robin Scheduling:"]).alloc
      ((m.print ["Priority with Round-Robin Scheduling:"]).object tasks)).1)
  refine ⟨?_, ?_, ?_⟩
  · simp only [call, callLoop_eq_roundRobin, Memory.print, Memory.alloc] at h1 ⊢
    exact h1
  · intro a ha
    have hne : a ≠ m.next := by omega
    have := h2 a hne
    simp only [call, callLoop_eq_roundRobin, Memory.print, Memory.alloc, if_neg hne] at this ⊢
    exact this
  · simp only [call, callLoop_eq_roundRobin, Memory.print, Memory.alloc, if_true,
      scheduleTasks, dispatch_eq_roundRobin] at h3 ⊢
    rw [h3]
    simp

end PriorityWithRR

theorem FCFS.call_spec_fcfs (tasks : Nat) (m : Memory) :
    (FCFS.call tasks m).next = m.next ∧
    (∀ a, (FCFS.call tasks m).object a = m.object a) ∧
    (FCFS.call tasks m).cout = m.cout ++ FCFS.scheduleTasks (m.object tasks) := by
  refine ⟨rfl, fun _ => rfl, ?_⟩
  simp [FCFS.call, Memory.print, FCFS.scheduleTasks, FCFS.dispatch]

theorem SJF.call_spec_sjf (sort : Sorter) (tasks : Nat) (m : Memory) :
    (SJF.call sort tasks m).next = m.next + 1 ∧
    (∀ a, a < m.next → (SJF.call sort tasks m).object a = m.object a) ∧
    (SJF.call sort tasks m).cout = m.cout ++ SJF.scheduleTasks sort (m.object tasks) := by
  refine ⟨rfl, ?_, ?_⟩
  · intro a ha
    have hne : a ≠ m.next := by omega
    simp [SJF.call, Memory.print, Memory.alloc, Memory.write, hne]
  · simp [SJF.call, Memory.print, Memory.alloc, Memory.write, SJF.scheduleTasks, SJF.dispatch]

theorem PriorityScheduling.call_spec_priority (sort : Sorter) (tasks : Nat) (m : Memory) :
    (PriorityScheduling.call sort tasks m).next = m.next + 1 ∧
    (∀ a, a < m.next → (PriorityScheduling.call sort tasks m).object a = m.object a) ∧
    (PriorityScheduling.call sort tasks m).cout =
      m.cout ++ PriorityScheduling.scheduleTasks sort (m.object tasks) := by
  refine ⟨rfl, ?_, ?_⟩
  · intro a ha
    have hne : a ≠ m.next := by omega
    simp [PriorityScheduling.call, Memory.print, Memory.alloc, Memory.write, hne]
  · simp [PriorityScheduling.call, Memory.print, Memory.alloc, Memory.write,
      PriorityScheduling.scheduleTasks, PriorityScheduling.dispatch]

/-- The run of `main` leaves the vector it constructed as it was filled and
writes the five blocks, each computed from that vector. -/
theorem mainRun_spec (sort : Sorter) (B : List Task) :
    (mainRun sort B).object 0 = B ∧ (mainRun sort B).cout = mainOutput sort B := by
  have hrun : mainRun sort B =
      PriorityWithRR.call 0 (RoundRobin.call 0 (PriorityScheduling.call sort 0
        (SJF.call sort 0 (FCFS.call 0 (Memory.empty.alloc B).1)))) := rfl
  have h0o : (Memory.empty.alloc B).1.object 0 = B := by simp [Memory.alloc, Memory.empty]
  have h0n : (Memory.empty.alloc B).1.next = 1 := rfl
  have h0c : (Memory.empty.alloc B).1.cout = [] := rfl
  generalize (Memory.empty.alloc B).1 = m0 at hrun h0o h0n h0c
  obtain ⟨n1, o1, c1⟩ := FCFS.call_spec_fcfs 0 m0
  generalize FCFS.call 0 m0 = m1 at hrun n1 o1 c1
  obtain ⟨n2, o2, c2⟩ := SJF.call_spec_sjf sort 0 m1
  generalize SJF.call sort 0 m1 = m2 at hrun n2 o2 c2
  obtain ⟨n3, o3, c3⟩ := PriorityScheduling.call_spec_priority sort 0 m2
  generalize PriorityScheduling.call sort 0 m2 = m3 at hrun n3 o3 c3
  obtain ⟨n4, o4, c4⟩ := RoundRobin.call_spec_roundRobin 0 m3
  generalize RoundRobin.call 0 m3 = m4 at hrun n4 o4 c4
  obtain ⟨n5, o5, c5⟩ := PriorityWithRR.call_spec_priorityWithRR 0 m4
  have e1 : m1.object 0 = B := by rw [o1 0, h0o]
  have e2 : m2.object 0 = B := by rw [o2 0 (by omega), e1]
  have e3 : m3.object 0 = B := by rw [o3 0 (by omega), e2]
  have e4 : m4.object 0 = B := by rw [o4 0 (by omega), e3]
  rw [hrun]
  refine ⟨by rw [o5 0 (by omega), e4], ?_⟩
  rw [c5, c4, c3, c2, c1, h0c, e1, e2, e3, e4, h0o, mainOutput]
  simp

/-- C15: no policy changes the vector `tasks` of `main`. A call of any of the
five policies on the container at address `tasks` leaves every container that
existed before the call as it was (same entries, same order, same fields), the
one at `tasks` among them; the copies it sorts or rotates are containers of its
own. What it prints is its block for the entries of `tasks`. So after the five
calls of `main` the vector still holds the batch read, and the output is the
five blocks each computed from that batch. -/
theorem policies_leave_batch (sort : Sorter) (m : Memory) (tasks : Nat) :
    (∀ a, a < m.next →
      (FCFS.call tasks m).object a = m.object a ∧
      (SJF.call sort tasks m).object a = m.object a ∧
      (PriorityScheduling.call sort tasks m).object a = m.object a ∧
      (RoundRobin.call tasks m).object a = m.object a ∧
      (PriorityWithRR.call tasks m).object a = m.object a) ∧
    ((FCFS.call tasks m).cout = m.cout ++ FCFS.scheduleTasks (m.object tasks) ∧
      (SJF.call sort tasks m).cout = m.cout ++ SJF.scheduleTasks sort (m.object tasks) ∧
      (PriorityScheduling.call sort tasks m).cout =
        m.cout ++ PriorityScheduling.scheduleTasks sort (m.object tasks) ∧
      (RoundRobin.call tasks m).cout = m.cout ++ RoundRobin.scheduleTasks (m.object tasks) ∧
      (PriorityWithRR.call tasks m).cout =
        m.cout ++ PriorityWithRR.scheduleTasks (m.object tasks)) ∧
    (∀ B : List Task,
      (mainRun sort B).object 0 = B ∧ (mainRun sort B).cout = mainOutput sort B) := by
  refine ⟨fun a ha =>
      ⟨(FCFS.call_spec_fcfs tasks m).2.1 a,
       (SJF.call_spec_sjf sort tasks m).2.1 a ha,
       (PriorityScheduling.call_spec_priority sort tasks m).2.1 a ha,
       (RoundRobin.call_spec_roundRobin tasks m).2.1 a ha,
       (PriorityWithRR.call_spec_priorityWithRR tasks m).2.1 a ha⟩,
    ⟨(FCFS.call_spec_fcfs tasks m).2.2,
     (SJF.call_spec_sjf sort tasks m).2.2,
     (PriorityScheduling.call_spec_priority sort tasks m).2.2,
     (RoundRobin.call_spec_roundRobin tasks m).2.2,
     (PriorityWithRR.call_spec_priorityWithRR tasks m).2.2⟩,
    fun B => mainRun_spec sort B⟩

theorem policies_leave_batch_witness :
    0 < (Memory.empty.alloc exampleBatch).1.next ∧
    (RoundRobin.call 0 (Memory.empty.alloc exampleBatch).1).object 0 =
      (Memory.empty.alloc exampleBatch).1.object 0 :=
  ⟨by decide,
    ((policies_leave_batch stableSort (Memory.empty.alloc exampleBatch).1 0).1 0
      (by decide)).2.2.2.1⟩

/-! ## The text written -/

theorem render_count (ls : List String) (h : ∀ l ∈ ls, Char.ofNat 10 ∉ l.toList) :
    (render ls).count (Char.ofNat 10) = ls.length := by
  induction ls with
  | nil => rfl
  | cons l r ih =>
    have hl : l.toList.count (Char.ofNat 10) = 0 :=
      List.count_eq_zero.mpr (h l (List.mem_cons_self _ _))
    rw [render, List.count_append, List.count_cons_self,
      ih (fun m hm => h m (List.mem_cons_of_mem _ hm)), hl, List.length_cons]
    omega

theorem execLine_no_newline (t : Task) (h : Char.ofNat 10 ∉ t.name.toList) :
    Char.ofNat 10 ∉ (execLine t).toList := by
  have h0 : Char.ofNat 10 ∉ "Executing task: ".toList := by decide
  simp only [execLine, String.toList, String.data_append, List.mem_append, not_or]
  exact ⟨h0, h⟩

/-- A block of lines has no newline inside a line when the names printed have
none. -/
theorem block_no_newline (header : String) (hh : Char.ofNat 10 ∉ header.toList)
    (d : List Task) (hd : ∀ t ∈ d, Char.ofNat 10 ∉ t.name.toList) :
    ∀ l ∈ header :: d.map execLine ++ [""], Char.ofNat 10 ∉ l.toList := by
  intro l hl
  simp only [List.cons_append, List.mem_cons, List.mem_append, List.mem_map,
    List.mem_singleton, List.not_mem_nil, or_false] at hl
  rcases hl with rfl | ⟨t, ht, rfl⟩ | rfl
  · exact hh
  · exact execLine_no_newline t (hd t ht)
  · decide

theorem RoundRobin.dispatch_name_mem (B : List Task) (t : Task)
    (ht : t ∈ RoundRobin.dispatch B) : ∃ u ∈ B, u.name = t.name := by
  have hp := RoundRobin.dispatch_map_perm Task.name (fun _ => rfl) B
  have : t.name ∈ (RoundRobin.dispatch B).map Task.name := List.mem_map_of_mem _ ht
  exact List.mem_map.mp (hp.mem_iff.mp this)

/-- C16: the lines `main` writes are the five blocks, in the order FCFS, SJF,
Priority, Round-Robin, Priority with Round-Robin, each block its header line,
one `Executing task: <name>` line per task in the dispatch order of the policy,
and one empty line; that makes `5 * (length of B + 2)` lines, and the
characters written hold exactly that many newlines when no name holds one. -/
theorem main_output_blocks (sort : Sorter) (hsort : IsStdSort sort) (B : List Task) :
    mainOutput sort B =
      ("FCFS Scheduling:" ::
        (FCFS.dispatch B).map (fun t => "Executing task: " ++ t.name) ++ [""]) ++
      ("SJF Scheduling:" ::
        (SJF.dispatch sort B).map (fun t => "Executing task: " ++ t.name) ++ [""]) ++
      ("Priority Scheduling:" ::
        (PriorityScheduling.dispatch sort B).map (fun t => "Executing task: " ++ t.name) ++
          [""]) ++
      ("Round-Robin Scheduling:" ::
        (RoundRobin.dispatch B).map (fun t => "Executing task: " ++ t.name) ++ [""]) ++
      ("Priority with Round-Robin Scheduling:" ::
        (PriorityWithRR.dispatch B).map (fun t => "Executing task: " ++ t.name) ++ [""]) ∧
    (mainOutput sort B).length = 5 * (B.length + 2) ∧
    ((∀ t ∈ B, Char.ofNat 10 ∉ t.name.toList) →
      (render (mainOutput sort B)).count (Char.ofNat 10) = 5 * (B.length + 2)) := by
  have h1 : FCFS.dispatch B = B := emitFrom_zero B
  have h2 : (SJF.dispatch sort B).Perm B := by
    rw [SJF.dispatch_eq_sort]
    exact (hsort _ strictWeakOrder_compareBurstTime B).1
  have h3 : (PriorityScheduling.dispatch sort B).Perm B := by
    rw [PriorityScheduling.dispatch_eq_sorted]
    exact (hsort _ strictWeakOrder_comparePriority B).1
  have h4 : (RoundRobin.dispatch B).length = B.length := RoundRobin.dispatch_length B
  have h5 : PriorityWithRR.dispatch B = RoundRobin.dispatch B :=
    PriorityWithRR.dispatch_eq_roundRobin B
  have hlen : (mainOutput sort B).length = 5 * (B.length + 2) := by
    simp only [mainOutput, FCFS.scheduleTasks, SJF.scheduleTasks,
      PriorityScheduling.scheduleTasks, RoundRobin.scheduleTasks,
      PriorityWithRR.scheduleTasks, List.length_append, List.length_cons, List.length_map,
      List.length_nil, h1, h2.length_eq, h3.length_eq, h4, h5]
    omega
  refine ⟨rfl, hlen, ?_⟩
  intro hname
  rw [render_count, hlen]
  intro l hl
  simp only [mainOutput, List.mem_append] at hl
  rcases hl with (((hl | hl) | hl) | hl) | hl
  · refine block_no_newline _ (by decide) _ ?_ l hl
    rw [h1]
    exact hname
  · exact block_no_newline _ (by decide) _ (fun t ht => hname t (h2.mem_iff.mp ht)) l hl
  · exact block_no_newline _ (by decide) _ (fun t ht => hname t (h3.mem_iff.mp ht)) l hl
  · refine block_no_newline _ (by decide) _ ?_ l hl
    intro t ht
    obtain ⟨u, hu, hn⟩ := RoundRobin.dispatch_name_mem B t ht
    rw [← hn]
    exact hname u hu
  · refine block_no_newline _ (by decide) _ ?_ l hl
    intro t ht
    rw [h5] at ht
    obtain ⟨u, hu, hn⟩ := RoundRobin.dispatch_name_mem B t ht
    rw [← hn]
    exact hname u hu

theorem main_output_blocks_witness :
    IsStdSort stableSort ∧
    (∀ t ∈ exampleBatch, Char.ofNat 10 ∉ t.name.toList) ∧
    (mainOutput stableSort exampleBatch).length = 5 * (exampleBatch.length + 2) ∧
    (render (mainOutput stableSort exampleBatch)).count (Char.ofNat 10) =
      5 * (exampleBatch.length + 2) :=
  ⟨isStdSort_stableSort, by decide,
    (main_output_blocks stableSort isStdSort_stableSort exampleBatch).2.1,
    (main_output_blocks stableSort isStdSort_stableSort exampleBatch).2.2 (by decide)⟩

/-! ## Invariants of the rotation -/

namespace RoundRobin

/-- A property of the loop state that every pop preserves holds after any
number of pops. -/
theorem stepN_invariant (P : State → Prop) (hstep : ∀ s s', P s → step s = some s' → P s')
    (n : Nat) {s s' : State} (h0 : P s) (h : stepN n s = some s') : P s' := by
  induction n generalizing s with
  | zero =>
    rw [stepN_zero, Option.some.injEq] at h
    subst h
    exact h0
  | succ n ih =>
    rw [stepN_succ] at h
    cases hs : step s with
    | none => rw [hs] at h; simp at h
    | some s₁ =>
      rw [hs, Option.some_bind] at h
      exact ih (hstep s s₁ h0 hs) h

/-- Entries of burst time zero or less stay as they are, and in their order,
when the printed records are read before the queued ones. -/
theorem stepN_nonpositive (B : List Task) (n : Nat) {s : State}
    (h : stepN n { taskQueue := B, emitted := [] } = some s) :
    (s.emitted ++ s.taskQueue).filter (fun t => decide (t.burstTime ≤ 0)) =
      B.filter (fun t => decide (t.burstTime ≤ 0)) := by
  refine stepN_invariant
    (fun s => (s.emitted ++ s.taskQueue).filter (fun t => decide (t.burstTime ≤ 0)) =
      B.filter (fun t => decide (t.burstTime ≤ 0))) ?_ n (by simp) h
  intro s s' hP hs
  obtain ⟨task, rest, hq, hc⟩ := step_some_cases hs
  simp only [hq] at hP
  rcases hc with ⟨hb, rfl⟩ | ⟨hb, rfl⟩
  · have h1 : ¬ task.burstTime ≤ 0 := by omega
    have h2 : ¬ (requeue task).burstTime ≤ 0 := by
      simp only [requeue]
      omega
    rw [← hP]
    simp [List.filter_append, List.filter_cons, h1, h2]
  · rw [← hP]
    simp

end RoundRobin

/-! ## No positivity precondition -/

/-- C17: Round-Robin needs no positivity precondition. An entry of burst time
zero or less at the front of the queue is printed by the pop that finds it
there, as it is, and is not requeued; in every state reached the entries of
burst time zero or less are those of the batch, unchanged and in input order
(printed ones first), so they are printed in input order; and for every batch
the loop exits, after `workLeft B` pops, with an empty queue. -/
theorem RoundRobin_no_positivity_needed (B : List Task) :
    (∀ (task : Task) (rest e : List Task), task.burstTime ≤ 0 →
      RoundRobin.step { taskQueue := task :: rest, emitted := e } =
        some { taskQueue := rest, emitted := e ++ [task] }) ∧
    (∀ n s, RoundRobin.stepN n { taskQueue := B, emitted := [] } = some s →
      (s.emitted ++ s.taskQueue).filter (fun t => decide (t.burstTime ≤ 0)) =
        B.filter (fun t => decide (t.burstTime ≤ 0))) ∧
    (RoundRobin.dispatch B).filter (fun t => decide (t.burstTime ≤ 0)) =
      B.filter (fun t => decide (t.burstTime ≤ 0)) ∧
    RoundRobin.stepN (workLeft B) { taskQueue := B, emitted := [] } =
      some (RoundRobin.loop { taskQueue := B, emitted := [] }) ∧
    (RoundRobin.loop { taskQueue := B, emitted := [] }).taskQueue = [] ∧
    RoundRobin.step (RoundRobin.loop { taskQueue := B, emitted := [] }) = none := by
  have hend := RoundRobin.stepN_workLeft { taskQueue := B, emitted := [] }
  have hq := RoundRobin.loop_taskQueue { taskQueue := B, emitted := [] }
  refine ⟨?_, fun n s h => RoundRobin.stepN_nonpositive B n h, ?_, hend, hq,
    RoundRobin.step_loop _⟩
  · intro task rest e hb
    rw [RoundRobin.step_cons, if_neg (by omega)]
  · have := RoundRobin.stepN_nonpositive B _ hend
    rw [hq, List.append_nil] at this
    exact this

theorem RoundRobin_no_positivity_needed_witness :
    RoundRobin.step { taskQueue := [⟨"Z", 1, 0⟩, ⟨"N", 2, -7⟩], emitted := [] } =
      some { taskQueue := [⟨"N", 2, -7⟩], emitted := [⟨"Z", 1, 0⟩] } ∧
    ([⟨"Z", 1, 0⟩] ++ [⟨"B", 2, 25⟩, ⟨"N", 2, -7⟩] : List Task).filter
        (fun t => decide (t.burstTime ≤ 0)) =
      ([⟨"Z", 1, 0⟩, ⟨"B", 2, 25⟩, ⟨"N", 2, -7⟩] : List Task).filter
        (fun t => decide (t.burstTime ≤ 0)) :=
  ⟨(RoundRobin_no_positivity_needed []).1 ⟨"Z", 1, 0⟩ [⟨"N", 2, -7⟩] [] (by decide),
    (RoundRobin_no_positivity_needed [⟨"Z", 1, 0⟩, ⟨"B", 2, 25⟩, ⟨"N", 2, -7⟩]).2.1 1
      { taskQueue := [⟨"B", 2, 25⟩, ⟨"N", 2, -7⟩], emitted := [⟨"Z", 1, 0⟩] } (by decide)⟩

/-! ## The number of pops -/

/-- C18: the Round-Robin loop makes exactly `workLeft B` pops, the sum over the
batch of `turns burstTime`, where `turns b` is 1 for `b ≤ 10` and `⌈b / 10⌉`
otherwise: after that many pops the queue is empty, and no state reached after
another number of pops has an empty queue; the requeues among these pops are
the sum over the batch of `turns burstTime - 1`. -/
theorem RoundRobin_pop_count (B : List Task) :
    workLeft B = (B.map (fun t => turns t.burstTime)).sum ∧
    (∀ b : Int, (turns b : Int) = if b ≤ 10 then 1 else ⌈(b : ℚ) / 10⌉) ∧
    RoundRobin.stepN (workLeft B) { taskQueue := B, emitted := [] } =
      some (RoundRobin.loop { taskQueue := B, emitted := [] }) ∧
    RoundRobin.step (RoundRobin.loop { taskQueue := B, emitted := [] }) = none ∧
    RoundRobin.stepN (workLeft B + 1) { taskQueue := B, emitted := [] } = none ∧
    (∀ n s, RoundRobin.stepN n { taskQueue := B, emitted := [] } = some s →
      (RoundRobin.step s = none ↔ n = workLeft B)) ∧
    RoundRobin.requeues (workLeft B) { taskQueue := B, emitted := [] } =
      (B.map (fun t => turns t.burstTime - 1)).sum := by
  have hend := RoundRobin.stepN_workLeft { taskQueue := B, emitted := [] }
  have hnone := RoundRobin.step_loop { taskQueue := B, emitted := [] }
  refine ⟨rfl, turns_eq_ceil, hend, hnone, ?_, ?_, ?_⟩
  · rw [RoundRobin.stepN_add, hend, Option.some_bind, RoundRobin.stepN_succ, hnone]
    rfl
  · intro n s h
    have hw := RoundRobin.stepN_workLeft_add n h
    simp only at hw
    rw [RoundRobin.step_eq_none_iff, ← RoundRobin.workLeft_eq_zero_iff]
    omega
  · have h1 := RoundRobin.requeues_workLeft B
    have h2 := sum_turns_pred B
    omega

theorem RoundRobin_pop_count_witness :
    (RoundRobin.step { taskQueue := [⟨"B", 2, 5⟩], emitted := [⟨"A", 1, 5⟩, ⟨"C", 3, 8⟩] } =
        none ↔ 4 = workLeft exampleBatch) :=
  (RoundRobin_pop_count exampleBatch).2.2.2.2.2.1 4
    { taskQueue := [⟨"B", 2, 5⟩], emitted := [⟨"A", 1, 5⟩, ⟨"C", 3, 8⟩] } (by decide)

/-! ## The working queue holds requeued copies of the batch -/

theorem descends_self (B : List Task) (t : Task) (h : t ∈ B) : Descends B t := by
  refine ⟨t, h, 0, ?_, fun hk => absurd hk (by omega)⟩
  cases t
  simp

theorem descends_requeue (B : List Task) (t : Task) (h : Descends B t)
    (hb : t.burstTime > 10) : Descends B (requeue t) := by
  obtain ⟨o, ho, k, ht, hk⟩ := h
  have hle : t.burstTime ≤ o.burstTime := by
    rw [ht]
    show o.burstTime - 10 * (k : Int) ≤ o.burstTime
    omega
  refine ⟨o, ho, k + 1, ?_, fun _ => ?_⟩
  · rw [ht]
    simp only [requeue, Task.mk.injEq, true_and]
    push_cast
    omega
  · simp only [requeue]
    omega

theorem descends_inInt32 (B : List Task) (hB : ∀ t ∈ B, inInt32 t.burstTime) (t : Task)
    (h : Descends B t) : inInt32 t.burstTime := by
  obtain ⟨o, ho, k, ht, hk⟩ := h
  have hoB := hB o ho
  have hval : t.burstTime = o.burstTime - 10 * (k : Int) := by rw [ht]
  unfold inInt32 at hoB ⊢
  rcases Nat.eq_zero_or_pos k with h0 | hpos
  · subst h0
    simp only [Nat.cast_zero, mul_zero, sub_zero] at hval
    omega
  · have := hk hpos
    omega

theorem wrap32_of_inInt32 (x : Int) (h : inInt32 x) : wrap32 x = x := by
  unfold inInt32 at h
  unfold wrap32
  omega

namespace RoundRobin

/-- The records of every state reached descend from the batch, the printed
ones with at most 10 left. -/
theorem stepN_descends (B : List Task) (n : Nat) {s : State}
    (h : stepN n { taskQueue := B, emitted := [] } = some s) :
    (∀ t ∈ s.taskQueue, Descends B t) ∧ (∀ t ∈ s.emitted, Descends B t ∧ t.burstTime ≤ 10) := by
  refine stepN_invariant
    (fun s => (∀ t ∈ s.taskQueue, Descends B t) ∧
      (∀ t ∈ s.emitted, Descends B t ∧ t.burstTime ≤ 10)) ?_ n
    ⟨fun t ht => descends_self B t ht, fun t ht => absurd ht (List.not_mem_nil t)⟩ h
  intro s s' hP hs
  obtain ⟨hQ, hE⟩ := hP
  obtain ⟨task, rest, hq, hc⟩ := step_some_cases hs
  rw [hq] at hQ
  have htask := hQ task (List.mem_cons_self _ _)
  have hrest : ∀ t ∈ rest, Descends B t := fun t ht => hQ t (List.mem_cons_of_mem _ ht)
  rcases hc with ⟨hb, rfl⟩ | ⟨hb, rfl⟩
  · refine ⟨?_, hE⟩
    intro t ht
    rcases List.mem_append.mp ht with ht | ht
    · exact hrest t ht
    · rw [List.mem_singleton] at ht
      subst ht
      exact descends_requeue B task htask hb
  · refine ⟨hrest, ?_⟩
    intro t ht
    rcases List.mem_append.mp ht with ht | ht
    · exact hE t ht
    · rw [List.mem_singleton] at ht
      subst ht
      exact ⟨htask, hb⟩

theorem stepN_queueInvariant (B : List Task) (hB : ∀ t ∈ B, inInt32 t.burstTime) (n : Nat)
    {s : State} (h : stepN n { taskQueue := B, emitted := [] } = some s) :
    QueueInvariant step B s := by
  obtain ⟨hQ, hE⟩ := stepN_descends B n h
  refine ⟨hQ, hE, ?_, ?_⟩
  · intro t ht
    rcases List.mem_append.mp ht with ht | ht
    · exact descends_inInt32 B hB t (hQ t ht)
    · exact descends_inInt32 B hB t (hE t ht).1
  · intro task rest hq
    obtain ⟨q, e⟩ := s
    simp only at hq
    subst hq
    have hin := descends_inInt32 B hB task (hQ task (List.mem_cons_self _ _))
    by_cases hb : task.burstTime > 10
    · have hw : wrap32 (task.burstTime - 10) = task.burstTime - 10 := by
        apply wrap32_of_inInt32
        unfold inInt32 at hin ⊢
        omega
      refine Or.inr ⟨hb, hw, by omega, ?_⟩
      rw [step_cons, if_pos hb, hw]
    · refine Or.inl ⟨by omega, ?_⟩
      rw [step_cons, if_neg hb]

end RoundRobin

/-! ## Traced runs -/

namespace RoundRobin

theorem ghostStep_erase (g : Ghost) : (ghostStep g).map Ghost.erase = step g.erase := by
  obtain ⟨q, e⟩ := g
  cases q with
  | nil => rfl
  | cons x rest =>
    by_cases hb : x.cur.burstTime > 10
    · simp [ghostStep, Ghost.erase, step, timeQuantum, hb]
    · simp [ghostStep, Ghost.erase, step, timeQuantum, hb]

theorem ghostStepN_erase (n : Nat) (g : Ghost) :
    (ghostStepN n g).map Ghost.erase = stepN n g.erase := by
  induction n generalizing g with
  | zero => rfl
  | succ n ih =>
    have h := ghostStep_erase g
    rw [ghostStepN, stepN_succ, ← h]
    cases ghostStep g with
    | none => rfl
    | some g' => simpa using ih g'

theorem ghost_init_erase (B : List Task) :
    (Ghost.init B).erase = { taskQueue := B, emitted := [] } := by
  simp [Ghost.init, Ghost.erase, List.map_map, Function.comp_def]

/-- The two ways a traced pop can go. -/
theorem ghostStep_some_cases {g g' : Ghost} (h : ghostStep g = some g') :
    ∃ x rest, g.taskQueue = x :: rest ∧
      ((x.cur.burstTime > 10 ∧
          g' = { taskQueue := rest ++ [{ orig := x.orig, passes := x.passes + 1,
                                         cur := requeue x.cur }],
                 emitted := g.emitted }) ∨
       (x.cur.burstTime ≤ 10 ∧
          g' = { taskQueue := rest, emitted := g.emitted ++ [x] })) := by
  obtain ⟨q, e⟩ := g
  cases q with
  | nil => simp [ghostStep] at h
  | cons x rest =>
    refine ⟨x, rest, rfl, ?_⟩
    by_cases hb : x.cur.burstTime > 10
    · simp only [ghostStep, timeQuantum, if_pos hb, Option.some.injEq] at h
      exact Or.inl ⟨hb, h.symm⟩
    · simp only [ghostStep, timeQuantum, if_neg hb, Option.some.injEq] at h
      exact Or.inr ⟨by omega, h.symm⟩

theorem ghostStepN_invariant (P : Ghost → Prop)
    (hstep : ∀ g g', P g → ghostStep g = some g' → P g')
    (n : Nat) {g g' : Ghost} (h0 : P g) (h : ghostStepN n g = some g') : P g' := by
  induction n generalizing g with
  | zero =>
    simp only [ghostStepN, Option.some.injEq] at h
    subst h
    exact h0
  | succ n ih =>
    rw [ghostStepN] at h
    cases hs : ghostStep g with
    | none => rw [hs] at h; simp at h
    | some g₁ =>
      rw [hs, Option.some_bind] at h
      exact ih (hstep g g₁ h0 hs) h

theorem sound_requeue (x : Tracked) (h : x.Sound) (hb : x.cur.burstTime > 10) :
    Tracked.Sound { orig := x.orig, passes := x.passes + 1, cur := requeue x.cur } := by
  obtain ⟨hc, hk⟩ := h
  have hval : x.cur.burstTime = x.orig.burstTime - 10 * (x.passes : Int) := by rw [hc]
  refine ⟨?_, fun _ => ?_⟩
  · show requeue x.cur = _
    rw [hc]
    simp only [requeue, Task.mk.injEq, true_and]
    push_cast
    omega
  · show 1 ≤ (requeue x.cur).burstTime ∧ (requeue x.cur).burstTime < x.orig.burstTime
    simp only [requeue]
    omega

/-- What holds of every traced state reached from the batch: the originals are
the batch entries, each traced once; every record is sound; printed records
have at most 10 left. -/
theorem ghostStepN_sound (B : List Task) (n : Nat) {g : Ghost}
    (h : ghostStepN n (Ghost.init B) = some g) :
    ((g.emitted ++ g.taskQueue).map Tracked.orig).Perm B ∧
    (∀ x ∈ g.taskQueue, x.Sound) ∧
    (∀ x ∈ g.emitted, x.Sound ∧ x.cur.burstTime ≤ 10) := by
  refine ghostStepN_invariant
    (fun g => ((g.emitted ++ g.taskQueue).map Tracked.orig).Perm B ∧
      (∀ x ∈ g.taskQueue, x.Sound) ∧ (∀ x ∈ g.emitted, x.Sound ∧ x.cur.burstTime ≤ 10))
    ?_ n ?_ h
  · intro g g' hP hs
    obtain ⟨hperm, hQ, hE⟩ := hP
    obtain ⟨x, rest, hq, hc⟩ := ghostStep_some_cases hs
    rw [hq] at hQ hperm
    have hx := hQ x (List.mem_cons_self _ _)
    have hrest : ∀ y ∈ rest, y.Sound := fun y hy => hQ y (List.mem_cons_of_mem _ hy)
    rcases hc with ⟨hb, rfl⟩ | ⟨hb, rfl⟩
    · refine ⟨?_, ?_, hE⟩
      · refine List.Perm.trans ?_ hperm
        simp only [List.map_append, List.map_cons, List.map_nil]
        exact List.Perm.append_left _ (List.perm_append_singleton _ _)
      · intro y hy
        rcases List.mem_append.mp hy with hy | hy
        · exact hrest y hy
        · rw [List.mem_singleton] at hy
          subst hy
          exact sound_requeue x hx hb
    · refine ⟨?_, hrest, ?_⟩
      · simpa using hperm
      · intro y hy
        rcases List.mem_append.mp hy with hy | hy
        · exact hE y hy
        · rw [List.mem_singleton] at hy
          subst hy
          exact ⟨hx, hb⟩
  · refine ⟨?_, ?_, fun x hx => absurd hx (List.not_mem_nil x)⟩
    · simp [Ghost.init, List.map_map, Function.comp_def]
    · intro x hx
      simp only [Ghost.init, List.mem_map] at hx
      obtain ⟨t, _, rfl⟩ := hx
      refine ⟨?_, fun hk => absurd hk (by simp)⟩
      cases t
      simp

end RoundRobin

theorem PriorityWithRR.stepN_eq_roundRobin (n : Nat) (s : State) :
    PriorityWithRR.stepN n s = RoundRobin.stepN n s := by
  induction n generalizing s with
  | zero => rfl
  | succ n ih =>
    rw [PriorityWithRR.stepN, RoundRobin.stepN, PriorityWithRR.step_eq_roundRobin]
    cases RoundRobin.step s with
    | none => rfl
    | some s' => exact ih s'

/-- C19: in every state either quantum loop reaches on a batch of `int` burst
times, each queued or printed record is a copy of a batch entry requeued some
number of times; each printed record has at most 10 left; and `burstTime -= 10`
is applied only to a front with more than 10 left, where the 32 bit
subtraction neither wraps nor gives less than 1. Traced record by record (the
traced run stands for the run of either loop, and its originals are the batch
entries, each once), a record that has been requeued at least once has at
least 1 left and less than its batch entry had. -/
theorem quantum_queue_invariant (B : List Task) (hB : ∀ t ∈ B, inInt32 t.burstTime) :
    (∀ n s, RoundRobin.stepN n { taskQueue := B, emitted := [] } = some s →
      QueueInvariant RoundRobin.step B s) ∧
    (∀ n s, PriorityWithRR.stepN n { taskQueue := B, emitted := [] } = some s →
      QueueInvariant PriorityWithRR.step B s) ∧
    (∀ n, (RoundRobin.ghostStepN n (Ghost.init B)).map Ghost.erase =
        RoundRobin.stepN n { taskQueue := B, emitted := [] } ∧
      (RoundRobin.ghostStepN n (Ghost.init B)).map Ghost.erase =
        PriorityWithRR.stepN n { taskQueue := B, emitted := [] }) ∧
    (∀ n g, RoundRobin.ghostStepN n (Ghost.init B) = some g →
      ((g.emitted ++ g.taskQueue).map Tracked.orig).Perm B ∧
      (∀ x ∈ g.taskQueue, x.Sound) ∧
      (∀ x ∈ g.emitted, x.Sound ∧ x.cur.burstTime ≤ 10)) := by
  have herase : ∀ n, (RoundRobin.ghostStepN n (Ghost.init B)).map Ghost.erase =
      RoundRobin.stepN n { taskQueue := B, emitted := [] } := by
    intro n
    rw [RoundRobin.ghostStepN_erase, RoundRobin.ghost_init_erase]
  refine ⟨fun n s h => RoundRobin.stepN_queueInvariant B hB n h, ?_, ?_,
    fun n g h => RoundRobin.ghostStepN_sound B n h⟩
  · intro n s h
    rw [PriorityWithRR.stepN_eq_roundRobin] at h
    have hstep : PriorityWithRR.step = RoundRobin.step :=
      funext PriorityWithRR.step_eq_roundRobin
    rw [hstep]
    exact RoundRobin.stepN_queueInvariant B hB n h
  · intro n
    refine ⟨herase n, ?_⟩
    rw [PriorityWithRR.stepN_eq_roundRobin]
    exact herase n

theorem quantum_queue_invariant_witness :
    (∀ t ∈ exampleBatch, inInt32 t.burstTime) ∧
    QueueInvariant RoundRobin.step exampleBatch
      { taskQueue := [⟨"B", 2, 15⟩], emitted := [⟨"A", 1, 5⟩, ⟨"C", 3, 8⟩] } :=
  ⟨by unfold inInt32; decide,
    (quantum_queue_invariant exampleBatch (by unfold inInt32; decide)).1 3
      { taskQueue := [⟨"B", 2, 15⟩], emitted := [⟨"A", 1, 5⟩, ⟨"C", 3, 8⟩] } (by decide)⟩

end CpuScheduler
